import Mathlib

/-!
Verification of the fs-snapshot snapshot-reconciliation core.

Shallow embedding of the Python sources under `src/fs_snapshot/`:
* `model/file_info.py` — `FileInfo`, compare states, actions, `diff`,
  `diff_file_info`, `diff_all`, `update`;
* `adapter/store.py` — the tag codec (`serialized_tags` / `deserialized_tags`),
  the compare query `sql_select_file_import_compare` (embedded as its
  result-set semantics over an in-memory table) and the row codecs
  (`deserialized_file_info`, `deserialized_file_info_compare`);
* `adapter/filesys.py` together with `util/re_.py` — the path-template
  compiler (`compiled_match_expr`, `find_match_segments`), the `Matcher`,
  and the scanner (`search`, `match_file_type_and_metadata`,
  `fetch_file_info`).

Modelling conventions: Python `str` is `List Char` (`Str`); `bytes` is
`List Nat`; timestamps (Python floats, only ever copied and compared for
equality here) are `Int`; Python `dict` is an association list; a function
that can raise returns `Except String`/`Option`.  `os.sep` is `'/'`
(POSIX).  Filesystem walking and hashing are modelled by an entry list
carrying the digest each file's bytes would hash to.
-/

namespace FsSnap


/-- Python `str`, modelled as its list of characters. -/
abbrev Str := List Char

/-- Python `bytes` (digests), modelled as a list of byte values. -/
abbrev Bytes := List Nat

/-- A metadata / tag map: a Python `dict` as an association list. -/
abbrev Tags := List (Str × Str)

/-- `os.sep` on the POSIX platforms the code targets. -/
def osSep : Char := '/'

/-- `os.path.join(a, b)` (posixpath, two arguments): an absolute `b` wins;
otherwise `b` is appended, inserting `/` unless `a` is empty or already
ends with `/`. -/
def posixJoin (a b : Str) : Str :=
  if b.head? = some osSep then b
  else if a = [] ∨ a.getLast? = some osSep then a ++ b
  else a ++ osSep :: b

/-- `os.path.basename` (posixpath): everything after the last separator. -/
def posixBasename (p : Str) : Str :=
  (p.reverse.takeWhile (fun c => c ≠ osSep)).reverse

/-- `os.path.dirname` (posixpath): everything before the last separator,
with trailing separators stripped unless the head is all separators. -/
def posixDirname (p : Str) : Str :=
  let head := p.take (p.length - (posixBasename p).length)
  if head ≠ [] ∧ ¬ (head.all (fun c => c = osSep)) then
    (head.reverse.dropWhile (fun c => c = osSep)).reverse
  else head

/-- `FileInfo` (`model/file_info.py`).  The two derived label fields
`file_group`/`file_type` are referenced by `adapter/filesys.py`
(`fetch_file_info`) and `adapter/store.py` (schema columns and
`deserialized_file_info`); the copy of `model/file_info.py` in the corpus
is a superseded iteration that omits them, so they are included here as the
rest of the final iteration requires. -/
structure FileInfo where
  digest : Bytes
  dir_name : Str
  base_name : Str
  created : Int
  modified : Int
  size : Int
  archived : Bool
  file_group : Option Str := none
  file_type : Option Str := none
  metadata : Tags
deriving DecidableEq

/-- `FileInfo.file_name` property: `os.path.join(dir_name, base_name)`. -/
def FileInfo.file_name (f : FileInfo) : Str :=
  posixJoin f.dir_name f.base_name

/-- The compare states (`NewOnly` / `OriginalOnly` / `OriginalAndNew`). -/
inductive CompareStates where
  | newOnly (new : FileInfo)
  | originalOnly (original : FileInfo)
  | originalAndNew (original new : FileInfo) (is_copy : Bool)
deriving DecidableEq

/-- The `Action` tagged union of `model/file_info.py`. -/
inductive Action where
  | created (new : FileInfo)
  | removed (original : FileInfo)
  | copied (original copy : FileInfo)
  | moved (original : FileInfo) (dir_name : Str) (metadata : Tags)
  | renamed (original : FileInfo) (base_name : Str) (metadata : Tags)
  | archived (original : FileInfo) (dir_name : Str) (metadata : Tags)
  | modified (original : FileInfo) (modified : Int) (size : Int) (digest : Bytes)
deriving DecidableEq

/-- `diff_file_info(a, b)` (`model/file_info.py:189-223`): classify a
matched, non-copy pair by the truth table of digest equality and
`file_name` equality, then by which path component changed.  The
`(False, False)` branch returns `None` ("should not reach in practice"). -/
def diff_file_info (a b : FileInfo) : Option Action :=
  let table := (decide (a.digest = b.digest), decide (a.file_name = b.file_name))
  if table = (false, false) then none
  else if table = (true, true) then none
  else if table = (true, false) then
    let subtable := (decide (a.dir_name = b.dir_name), decide (a.base_name = b.base_name))
    if subtable = (true, true) then none
    else if subtable = (false, true) then
      if b.archived then some (.archived a b.dir_name b.metadata)
      else some (.moved a b.dir_name b.metadata)
    else if subtable = (true, false) then
      some (.renamed a b.base_name b.metadata)
    else
      if b.archived then some (.archived a b.dir_name b.metadata)
      else some (.moved a b.dir_name b.metadata)
  else
    some (.modified a b.modified b.size b.digest)

/-- `diff(states)` (`model/file_info.py:173-186`). -/
def diff (states : CompareStates) : Option Action :=
  match states with
  | .originalOnly original => some (.removed original)
  | .newOnly new => some (.created new)
  | .originalAndNew original new is_copy =>
      if is_copy then some (.copied original new)
      else diff_file_info original new

/-- `diff_all(compare_states)`: the actions of all states, `None`s skipped. -/
def diff_all (compare_states : List CompareStates) : List Action :=
  compare_states.filterMap diff

/-- `update(file_info, action)` (`model/file_info.py:226-255`):
`dataclasses.replace` with the fields named by the action. -/
def update (file_info : FileInfo) (action : Action) : FileInfo :=
  match action with
  | .moved _ dir_name metadata =>
      { file_info with dir_name := dir_name, metadata := metadata }
  | .renamed _ base_name metadata =>
      { file_info with base_name := base_name, metadata := metadata }
  | .archived _ dir_name metadata =>
      { file_info with dir_name := dir_name, archived := true,
                       metadata := metadata }
  | .modified _ modified size digest =>
      { file_info with digest := digest, modified := modified, size := size }
  | .created _ => file_info
  | .removed _ => file_info
  | .copied _ _ => file_info

/-- A scanned record is well formed: the `base_name` produced by
`os.path.basename` is nonempty and separator-free, and the `dir_name`
produced by `os.path.dirname` is `/` itself or carries no trailing
separator.  Under these conditions `file_name` determines the pair. -/
def wfRecord (f : FileInfo) : Prop :=
  f.base_name ≠ [] ∧ osSep ∉ f.base_name ∧
    (f.dir_name = [osSep] ∨ f.dir_name.getLast? ≠ some osSep)

instance (f : FileInfo) : Decidable (wfRecord f) := by
  unfold wfRecord; infer_instance

/-- The directory part of a joined path: `d`, with a separator appended
unless `d` is empty or already ends in one. -/
def dirPrefix (d : Str) : Str :=
  if d = [] then [] else if d.getLast? = some osSep then d else d ++ [osSep]

/-- Recover a directory from its `dirPrefix`. -/
def dirRecover (P : Str) : Str :=
  if P = [] then [] else if P = [osSep] then [osSep] else P.dropLast

/-! ## Tag codec (`adapter/store.py:682-705`) -/

/-- Forward slash: absent from file paths on the host platforms. -/
def TAG_DELIMITER : Char := '/'

def TAG_VALUE_DELIMITER : Char := ':'

/-- Python `s.split(sep)` for a single-character separator. -/
def splitChar (sep : Char) (l : Str) : List Str :=
  l.foldr (fun c acc =>
    match acc with
    | g :: gs => if c = sep then [] :: g :: gs else (c :: g) :: gs
    | [] => [[c]]) [[]]

/-- Python `s.lower()` (ASCII model). -/
def pyLower (s : Str) : Str := s.map Char.toLower

/-- Python `s.strip()`: whitespace removed from both ends. -/
def pyStrip (s : Str) : Str :=
  ((s.dropWhile Char.isWhitespace).reverse.dropWhile Char.isWhitespace).reverse

/-- Python `sep.join(parts)` (also used to join compiled segment
expressions with the escaped separator). -/
def joinWith {α : Type} (sep : List α) : List (List α) → List α
  | [] => []
  | [x] => x
  | x :: xs => x ++ sep ++ joinWith sep xs

/-- Lexicographic `<` on Python strings (by code point). -/
def strLt : Str → Str → Bool
  | [], [] => false
  | [], _ :: _ => true
  | _ :: _, [] => false
  | a :: as, b :: bs =>
      if a.toNat < b.toNat then true
      else if b.toNat < a.toNat then false
      else strLt as bs

def insertPair (x : Str × Str) : Tags → Tags
  | [] => [x]
  | y :: ys => if strLt y.1 x.1 then y :: insertPair x ys else x :: y :: ys

/-- `sorted(tags.keys())` over the association-list model of the dict:
sort the (unique-keyed) pairs ascending by key. -/
def sortPairs (m : Tags) : Tags := m.foldr insertPair []

/-- `serialized_tag(key, value)`: `f"{key.lower().strip()}:{value}"`. -/
def serialized_tag (key value : Str) : Str :=
  pyStrip (pyLower key) ++ TAG_VALUE_DELIMITER :: value

/-- `serialized_tags(tags)`: empty string for an empty map, otherwise the
serialized `key:value` pairs in sorted key order, joined by and wrapped in
the delimiter. -/
def serialized_tags (tags : Tags) : Str :=
  if tags = [] then []
  else
    TAG_DELIMITER ::
      joinWith [TAG_DELIMITER]
        ((sortPairs tags).map (fun kv => serialized_tag kv.1 kv.2))
      ++ [TAG_DELIMITER]

/-- `deserialize_tag(tag)`: split on the key/value separator; a
`ValueError` (here `none`) unless there are exactly two parts. -/
def deserialize_tag (tag : Str) : Option (Str × Str) :=
  match splitChar TAG_VALUE_DELIMITER tag with
  | [k, v] => some (k, v)
  | _ => none

/-- The comprehension `[f(x) for x in l]` where `f` may raise. -/
def mapOrFail (f : α → Option β) : List α → Option (List β)
  | [] => some []
  | a :: l =>
      match f a, mapOrFail f l with
      | some b, some bs => some (b :: bs)
      | _, _ => none

/-- `deserialized_tags(tag_string)`: split on the delimiter, drop empty
entries, parse each tag (`dict(...)` modelled as the association list in
encounter order). -/
def deserialized_tags (tag_string : Str) : Option Tags :=
  mapOrFail deserialize_tag
    ((splitChar TAG_DELIMITER tag_string).filter (fun t => t.length > 0))

/-! ## The compare query and row codecs (`adapter/store.py`)

`sql_select_file_import_compare` is embedded as its result-set semantics
over an in-memory `file_info` table (a list of column records).  SQL
three-valued logic is modelled where it matters: a `WHERE` comparison
against a NULL side of an outer join is not TRUE and filters the row out.
`UNION` eliminates duplicate rows (`List.dedup`); row order, unspecified
in SQL without `ORDER BY`, is fixed here as the branch order of the
statement. -/

/-- An import id (`uuid4().bytes`). -/
abbrev ImportId := Bytes

/-- One row of the `file_info` table (schema in
`sql_script_init_file_info_table`). -/
structure Cols where
  digest : Bytes
  dir_name : Str
  base_name : Str
  created : Int
  modified : Int
  size : Int
  archived : Int
  file_group : Option Str
  file_type : Option Str
  tags : Str
  import_id : ImportId
deriving DecidableEq

/-- `contents_match_expr`: digest equality when `compare_digests`, else
size and modified-time equality. -/
def contentsMatch (cd : Bool) (p n : Cols) : Bool :=
  if cd then decide (p.digest = n.digest)
  else decide (p.size = n.size) && decide (p.modified = n.modified)

/-- `prev.dir_name = next.dir_name AND prev.base_name = next.base_name`. -/
def colsPathMatch (p n : Cols) : Bool :=
  decide (p.dir_name = n.dir_name) && decide (p.base_name = n.base_name)

/-- `contents_full_match_expr` against one `full_matches` row
`(digest, size, modified)`. -/
def fullMatchKey (cd : Bool) (p : Cols) (fm : Bytes × Int × Int) : Bool :=
  if cd then decide (p.digest = fm.1)
  else decide (p.size = fm.2.1) && decide (p.modified = fm.2.2)

/-- The `full_matches` CTE: the content keys of prev rows having a
content- and path-matching next row. -/
def fullMatches (cd : Bool) (pid nid : ImportId) (table : List Cols) :
    List (Bytes × Int × Int) :=
  table.flatMap (fun p =>
    table.filterMap (fun n =>
      if decide (p.import_id = pid) && decide (n.import_id = nid) &&
          contentsMatch cd p n && colsPathMatch p n then
        some (p.digest, p.size, p.modified)
      else none))

/-- One result row of the compare query: the prev-side columns, the
next-side columns (each side NULL as a whole when produced by an outer
join), and the `__copied__` flag. -/
structure CompareRow where
  prev : Option Cols
  next : Option Cols
  copied : Int
deriving DecidableEq

/-- `LEFT JOIN` of one left row against the table on `cond`: the matching
rows, or a single NULL row when there is none. -/
def leftJoinRows (cond : Cols → Bool) (table : List Cols) : List (Option Cols) :=
  match table.filter cond with
  | [] => [none]
  | ms => ms.map some

/-- `/* IN PREV ONLY */`: prev rows left-joined on content OR path match
(against the whole table), kept when the next side is NULL — but the
`WHERE` clause also compares `next.import_id` (NULL on exactly those
rows), so nothing survives. -/
def branchPrevOnly (cd : Bool) (pid nid : ImportId) (table : List Cols) :
    List CompareRow :=
  table.flatMap (fun p =>
    (leftJoinRows (fun n => contentsMatch cd p n || colsPathMatch p n) table).filterMap
      (fun nOpt =>
        if nOpt.isNone && decide (p.import_id = pid) &&
            (match nOpt with
             | some n => decide (n.import_id = nid)
             | none => false) then
          some ⟨some p, nOpt, 0⟩
        else none))

/-- `/* IN BOTH, RENAMED */`: content match, path differs, content key not
among the full matches (anti-join against `full_matches`). -/
def branchRenamed (cd : Bool) (pid nid : ImportId) (table : List Cols) :
    List CompareRow :=
  table.flatMap (fun p =>
    table.filterMap (fun n =>
      if decide (p.import_id = pid) && decide (n.import_id = nid) &&
          contentsMatch cd p n && !colsPathMatch p n &&
          (fullMatches cd pid nid table).all (fun fm => !fullMatchKey cd p fm) then
        some ⟨some p, some n, 0⟩
      else none))

/-- `/* IN BOTH, COPIED */`: content match, path differs, inner-joined
against `full_matches` (one row per matching content key). -/
def branchCopied (cd : Bool) (pid nid : ImportId) (table : List Cols) :
    List CompareRow :=
  table.flatMap (fun p =>
    table.flatMap (fun n =>
      (fullMatches cd pid nid table).filterMap (fun fm =>
        if decide (p.import_id = pid) && decide (n.import_id = nid) &&
            contentsMatch cd p n && !colsPathMatch p n &&
            fullMatchKey cd p fm then
          some ⟨some p, some n, 1⟩
        else none)))

/-- `/* IN BOTH, MODIFIED */`: path match, content differs. -/
def branchModified (cd : Bool) (pid nid : ImportId) (table : List Cols) :
    List CompareRow :=
  table.flatMap (fun p =>
    table.filterMap (fun n =>
      if decide (p.import_id = pid) && decide (n.import_id = nid) &&
          colsPathMatch p n && !contentsMatch cd p n then
        some ⟨some p, some n, 0⟩
      else none))

/-- `/* IN BOTH, NO CHANGE */`: content and path both match. -/
def branchNoChange (cd : Bool) (pid nid : ImportId) (table : List Cols) :
    List CompareRow :=
  table.flatMap (fun p =>
    table.filterMap (fun n =>
      if decide (p.import_id = pid) && decide (n.import_id = nid) &&
          contentsMatch cd p n && colsPathMatch p n then
        some ⟨some p, some n, 0⟩
      else none))

/-- `/* IN NEXT ONLY */`: mirror image of the prev-only branch; the
`WHERE` clause compares `prev.import_id` on rows whose prev side is NULL,
so nothing survives. -/
def branchNextOnly (cd : Bool) (pid nid : ImportId) (table : List Cols) :
    List CompareRow :=
  table.flatMap (fun n =>
    (leftJoinRows (fun p => contentsMatch cd p n || colsPathMatch n p) table).filterMap
      (fun pOpt =>
        if pOpt.isNone &&
            (match pOpt with
             | some p => decide (p.import_id = pid)
             | none => false) && decide (n.import_id = nid) then
          some ⟨pOpt, some n, 0⟩
        else none))

/-- `sql_select_file_import_compare`: the union of the six branches. -/
def sql_select_file_import_compare (cd : Bool) (pid nid : ImportId)
    (table : List Cols) : List CompareRow :=
  (branchPrevOnly cd pid nid table ++ branchRenamed cd pid nid table ++
    branchCopied cd pid nid table ++ branchModified cd pid nid table ++
    branchNoChange cd pid nid table ++ branchNextOnly cd pid nid table).dedup

/-- Python `str(x)` on a nullable string column (`str(None) == "None"`). -/
def pyStr (o : Option Str) : Str :=
  match o with
  | some s => s
  | none => "None".toList

/-- `deserialized_file_info(row, suffix)`: rebuild a `FileInfo` from one
side's columns; `bytes(None)` on a NULL side raises (`TypeError`), and a
malformed tag string raises (`ValueError`). -/
def deserialized_file_info (side : Option Cols) : Except String FileInfo :=
  match side with
  | none => .error "TypeError: NoneType"
  | some c =>
      match deserialized_tags c.tags with
      | none => .error "ValueError: bad tag format"
      | some md =>
          .ok ⟨c.digest, c.dir_name, c.base_name, c.created, c.modified, c.size,
            decide (c.archived = 1), some (pyStr c.file_group),
            some (pyStr c.file_type), md⟩

/-- `deserialized_file_info_compare(row)` (`store.py:664-679`): note that
the prev-only branch rebuilds the `OriginalOnly` record from the
`"_next"`-suffixed columns — exactly as the source does. -/
def deserialized_file_info_compare (row : CompareRow) :
    Except String CompareStates :=
  if row.prev = none ∧ row.next ≠ none then
    match deserialized_file_info row.next with
    | .ok n => .ok (.newOnly n)
    | .error e => .error e
  else if row.prev ≠ none ∧ row.next ≠ none then
    match deserialized_file_info row.prev, deserialized_file_info row.next with
    | .ok o, .ok n => .ok (.originalAndNew o n (decide (row.copied = 1)))
    | .error e, _ => .error e
    | _, .error e => .error e
  else if row.prev ≠ none ∧ row.next = none then
    match deserialized_file_info row.next with
    | .ok o => .ok (.originalOnly o)
    | .error e => .error e
  else .error "Unrecognized query results"

/-- `[f(x) for x in l]` where `f` may raise, over `Except`. -/
def mapOrFailE (f : α → Except String β) : List α → Except String (List β)
  | [] => .ok []
  | a :: l =>
      match f a, mapOrFailE f l with
      | .ok b, .ok bs => .ok (b :: bs)
      | .error e, _ => .error e
      | _, .error e => .error e

/-- The diff pipeline: `fetch_file_import_compare_latest` deserializes the
query rows into compare states and `command/diff.py` runs `diff_all`. -/
def compareActions (cd : Bool) (pid nid : ImportId) (table : List Cols) :
    Except String (List Action) :=
  match mapOrFailE deserialized_file_info_compare
      (sql_select_file_import_compare cd pid nid table) with
  | .ok states => .ok (diff_all states)
  | .error e => .error e

/-! ## Path-template compiler and matcher
(`adapter/filesys.py:137-166`, `util/re_.py`)

The compiled regular expression of `compiled_match_expr` only ever
contains four constructs: an escaped literal run, `.+` (from `**`),
`[^/]+` (from `*`), and `(?P<name>[^/]+)` (from `{name}`).  It is
embedded as a list of `Piece`s; `re.match` with `re.I | re.A` is embedded
as a backtracking matcher over those pieces that is anchored at the start
only, tries quantifier widths longest-first (greedy), compares literals
ASCII-case-insensitively, and captures original text.  `re.compile`
rejects a group name that is not an identifier (leading digit) or is
defined twice; that check is part of the embedded compiler. -/

/-- The constructs of a compiled match expression. -/
inductive Piece where
  | lit (s : Str)
  | star
  | dstar
  | var (name : Str)
deriving DecidableEq

/-- `[a-zA-Z0-9_]` (ASCII, per `re.A`). -/
def isWordChar (c : Char) : Bool :=
  ('a' ≤ c && c ≤ 'z') || ('A' ≤ c && c ≤ 'Z') || ('0' ≤ c && c ≤ '9') || c = '_'

/-- Match `\{[a-zA-Z0-9_]+\}` at the head of `s`: the token text and the
rest. -/
def matchVarAt (s : Str) : Option (Str × Str) :=
  match s with
  | [] => none
  | c :: t =>
      if c = '{' then
        let name := t.takeWhile isWordChar
        let dropped := t.dropWhile isWordChar
        if name ≠ [] ∧ dropped.head? = some '}' then
          some ('{' :: name ++ ['}'], dropped.tail)
        else none
      else none

/-- `REGEXP_VAR_OR_GLOB` = `(\{[a-zA-Z0-9_]+\}|\*\*|\*)` tried at the head
of `s`, alternatives in order. -/
def matchTokenAt (s : Str) : Option (Str × Str) :=
  match matchVarAt s with
  | some r => some r
  | none =>
      if s.take 2 = ['*', '*'] then some (['*', '*'], s.drop 2)
      else if s.take 1 = ['*'] then some (['*'], s.drop 1)
      else none

/-- The scanning loop of `re.finditer(REGEXP_VAR_OR_GLOB, s)` paired as in
`find_match_pairs`/`find_match_segments`: returns the `(preceding
literal, token text)` pairs and the literal text after the last token.
`acc` holds the reversed literal run read since the last token.  The
scan consumes at least one character per step, so it is written by
structural recursion on a fuel that starts at the input length; fuel can
only run out on the empty remainder, where the result agrees with the
no-fuel base case. -/
def scanAux : Nat → Str → Str → List (Str × Str) × Str
  | 0, acc, _ => ([], acc.reverse)
  | fuel + 1, acc, s =>
      match matchTokenAt s with
      | some (tok, rest) =>
          let r := scanAux fuel [] rest
          ((acc.reverse, tok) :: r.1, r.2)
      | none =>
          match s with
          | [] => ([], acc.reverse)
          | c :: rest => scanAux fuel (c :: acc) rest

/-- `find_match_segments(REGEXP_VAR_OR_GLOB, s)`: empty when the segment
holds no token, else the `(pre, token)` pairs followed by the trailing
`(post, "")` pair. -/
def find_match_segments (s : Str) : List (Str × Str) :=
  match scanAux s.length [] s with
  | ([], _) => []
  | (pairs, post) => pairs ++ [(post, [])]

/-- `_parse_var_or_glob`: `**` ↦ `.+`, `*` ↦ `[^/]+`,
`{name}` ↦ `(?P<name>[^/]+)`. -/
def parse_var_or_glob (s : Str) : Piece :=
  if s = ['*', '*'] then .dstar
  else if s = ['*'] then .star
  else .var ((s.drop 1).dropLast)

/-- `_build_segment` applied along `_parse_segment`: escaped literal fill
followed by the parsed token (nothing for the empty trailing token);
a segment without tokens is one escaped literal. -/
def parse_segment (s : Str) : List Piece :=
  match find_match_segments s with
  | [] => [.lit s]
  | pairs =>
      pairs.flatMap (fun pr =>
        .lit pr.1 :: (if pr.2 = [] then [] else [parse_var_or_glob pr.2]))

/-- The piece sequence of the full compiled expression: the segments of
`expr.split(os.sep)`, each parsed, joined by the escaped separator. -/
def exprPieces (expr : Str) : List Piece :=
  joinWith [Piece.lit [osSep]] ((splitChar osSep expr).map parse_segment)

/-- A `(?P<name>...)` group name `re.compile` accepts: an identifier, i.e.
(the charset being word characters) not starting with a digit. -/
def validGroupName (n : Str) : Bool :=
  match n with
  | [] => false
  | c :: _ => !c.isDigit

/-- The group names of a compiled expression, in definition order. -/
def pieceVarNames (ps : List Piece) : List Str :=
  ps.filterMap (fun p => match p with | .var n => some n | _ => none)

/-- `compiled_match_expr(expr)`: translate to pieces; `re.compile` raises
`re.PatternError` exactly when a group name is invalid or defined twice. -/
def compiled_match_expr (expr : Str) : Except Str (List Piece) :=
  if (pieceVarNames (exprPieces expr)).all validGroupName ∧
      (pieceVarNames (exprPieces expr)).Nodup then
    .ok (exprPieces expr)
  else .error ("PatternError".toList)

/-- ASCII-case-insensitive character comparison (`re.I` with `re.A`). -/
def ciEq (a b : Char) : Bool := decide (a.toLower = b.toLower)

/-- Does `pat` literally (case-insensitively) start `s`? -/
def ciStarts : Str → Str → Bool
  | [], _ => true
  | _ :: _, [] => false
  | a :: pat, b :: s => ciEq a b && ciStarts pat s

/-- `[n, n-1, ..., 1]`: the widths a greedy `+` quantifier tries, longest
first. -/
def descList : Nat → List Nat
  | 0 => []
  | n + 1 => (n + 1) :: descList n

/-- The backtracking semantics of `re.match` for a compiled piece list:
anchored at the start, each `+` quantifier greedy, literals compared
case-insensitively, captures taken from the original text.  Matching
succeeds as soon as all pieces have consumed a prefix of the input —
`re.match` does not require the whole string to match. -/
def matchPieces : List Piece → Str → Option Tags
  | [], _ => some []
  | .lit l :: ps, s =>
      if ciStarts l s then matchPieces ps (s.drop l.length) else none
  | .star :: ps, s =>
      (descList s.length).findSome? (fun n =>
        if (s.take n).all (fun c => c ≠ osSep) then matchPieces ps (s.drop n)
        else none)
  | .dstar :: ps, s =>
      (descList s.length).findSome? (fun n => matchPieces ps (s.drop n))
  | .var x :: ps, s =>
      (descList s.length).findSome? (fun n =>
        if (s.take n).all (fun c => c ≠ osSep) then
          (matchPieces ps (s.drop n)).map (fun caps => (x, s.take n) :: caps)
        else none)

/-- `Matcher.match(dir)`: `re.match` of the compiled expression, returning
`groupdict()` on success. -/
def matcherMatch (ps : List Piece) (path : Str) : Option Tags :=
  matchPieces ps path

/-- The spec's reading of matching — "applies the compiled pattern
anchored to the full path": identical to `matchPieces` except that an
exhausted pattern only succeeds on an exhausted input. -/
def matchPiecesFull : List Piece → Str → Option Tags
  | [], s => if s = [] then some [] else none
  | .lit l :: ps, s =>
      if ciStarts l s then matchPiecesFull ps (s.drop l.length) else none
  | .star :: ps, s =>
      (descList s.length).findSome? (fun n =>
        if (s.take n).all (fun c => c ≠ osSep) then matchPiecesFull ps (s.drop n)
        else none)
  | .dstar :: ps, s =>
      (descList s.length).findSome? (fun n => matchPiecesFull ps (s.drop n))
  | .var x :: ps, s =>
      (descList s.length).findSome? (fun n =>
        if (s.take n).all (fun c => c ≠ osSep) then
          (matchPiecesFull ps (s.drop n)).map (fun caps => (x, s.take n) :: caps)
        else none)

/-! ## Scanner (`adapter/filesys.py:31-131`)

The directory walk (`iglob` + `os.path.isfile`) and the digest engine are
modelled by a list of filesystem entries, each carrying its `stat` data
and the digest `digest(fname, ...)` would produce from its bytes.
Pattern compilation happens before the walk; `search` here takes the
compiled matchers (one list of compiled expressions per file type, in
mapping order). -/

/-- One filesystem entry seen by the walk. -/
structure FsEntry where
  fname : Str
  is_file : Bool
  st_size : Int
  st_ctime : Int
  st_mtime : Int
  contentDigest : Bytes
deriving DecidableEq

/-- `fetch_file_info(fname, ...)`: `stat` the file, digest it only when
`gather_digests`, split the path. -/
def fetch_file_info (e : FsEntry) (gather_digests : Bool := false)
    (archived : Bool := false) (file_group : Option Str := none)
    (file_type : Option Str := none) (metadata : Tags := []) : FileInfo :=
  let fdigest : Bytes := if gather_digests then e.contentDigest else []
  { digest := fdigest
    dir_name := posixDirname e.fname
    base_name := posixBasename e.fname
    created := e.st_ctime
    modified := e.st_mtime
    size := e.st_size
    archived := archived
    file_group := file_group
    file_type := file_type
    metadata := metadata }

/-- The inner `_match_metadata`: first matcher that accepts the path. -/
def match_metadata (matchers : List (List Piece)) (fname : Str) : Option Tags :=
  matchers.findSome? (fun m => matcherMatch m fname)

/-- `match_file_type_and_metadata(fname, match_paths)`: first file type
whose matchers accept the path, with the captured metadata. -/
def match_file_type_and_metadata (fname : Str)
    (match_paths : List (Str × List (List Piece))) : Option (Str × Tags) :=
  match_paths.findSome? (fun ft =>
    (match_metadata ft.2 fname).map (fun md => (ft.1, md)))

/-- The record `search` yields for one walked file. -/
def searchRecord (gather_digests : Bool) (is_archived : Option (Tags → Bool))
    (calc_file_group : Option (Tags → Option Str))
    (matchers : List (Str × List (List Piece))) (e : FsEntry) : FileInfo :=
  match match_file_type_and_metadata e.fname matchers with
  | none =>
      fetch_file_info e false false none none []
  | some (file_type, metadata) =>
      fetch_file_info e gather_digests
        (match is_archived with
         | none => false
         | some f => f metadata)
        (match calc_file_group with
         | none => none
         | some f => f metadata)
        (some file_type) metadata

/-- `search(...)`: every regular file under the root yields a record —
matched files with their metadata and (when enabled) digest, unmatched
files with empty metadata and digest gathering forced off. -/
def search (entries : List FsEntry)
    (matchers : List (Str × List (List Piece))) (gather_digests : Bool)
    (is_archived : Option (Tags → Bool))
    (calc_file_group : Option (Tags → Option Str)) : List FileInfo :=
  (entries.filter (fun e => e.is_file)).map
    (searchRecord gather_digests is_archived calc_file_group matchers)

/-! ## Compiler correctness (substitution round trip)

For the round trip, a pattern whose segments each hold at most one
variable/glob token is viewed as a list of structured segments; the
compiled pieces, the substituted path, and the expected captures all
factor through that structure. -/

/-- One path segment of a pattern, as the token scanner sees it: either
pure literal text, or a literal prefix, one token piece, and a literal
suffix. -/
inductive Seg where
  | lit (w : Str)
  | tok (pre : Str) (t : Piece) (suf : Str)
deriving DecidableEq

/-- Substitution into one token: a variable renders as its value, the
glob tokens render as their own text. -/
def tokRender (ν : Str → Str) : Piece → Str
  | .star => ['*']
  | .dstar => ['*', '*']
  | .var n => ν n
  | .lit w => w

/-- The captures one token contributes. -/
def tokCaps (ν : Str → Str) : Piece → Tags
  | .var n => [(n, ν n)]
  | _ => []

/-- The admissible tokens: globs, or a variable with a nonempty,
separator-free value. -/
def tokenOk (ν : Str → Str) : Piece → Prop
  | .star => True
  | .dstar => True
  | .var n => ν n ≠ [] ∧ osSep ∉ ν n
  | .lit _ => False

def segPieces : Seg → List Piece
  | .lit w => [.lit w]
  | .tok pre t suf => [.lit pre, t, .lit suf]

def segRender (ν : Str → Str) : Seg → Str
  | .lit w => w
  | .tok pre t suf => pre ++ tokRender ν t ++ suf

def segCaps (ν : Str → Str) : Seg → Tags
  | .lit _ => []
  | .tok _ t _ => tokCaps ν t

/-- Well-formed segment: all literal text separator-free and the token
admissible. -/
def segWf (ν : Str → Str) : Seg → Prop
  | .lit w => osSep ∉ w
  | .tok pre t suf => osSep ∉ pre ∧ osSep ∉ suf ∧ tokenOk ν t

/-- The compiled pieces of a segment list (segments joined by the escaped
separator), matching `exprPieces`' `intercalate`. -/
def flattenSegs : List Seg → List Piece
  | [] => []
  | [sg] => segPieces sg
  | sg :: rest => segPieces sg ++ .lit [osSep] :: flattenSegs rest

/-- The substituted path of a segment list. -/
def pathOf (ν : Str → Str) : List Seg → Str
  | [] => []
  | [sg] => segRender ν sg
  | sg :: rest => segRender ν sg ++ osSep :: pathOf ν rest

/-- The expected captures of a segment list. -/
def capsOf (ν : Str → Str) (segs : List Seg) : Tags :=
  segs.flatMap (segCaps ν)

/-- `'/'` occurrences in a string. -/
def sepCount (l : Str) : Nat := l.count osSep

/-- `'/'` occurrences required by the literal pieces of a pattern. -/
def sepPieces : List Piece → Nat
  | [] => 0
  | .lit l :: ps => sepCount l + sepPieces ps
  | _ :: ps => sepPieces ps

/-! ### From pattern text to segment structure -/

/-- The texts `REGEXP_VAR_OR_GLOB` can produce. -/
def TokenShape (t : Str) : Prop :=
  t = ['*'] ∨ t = ['*', '*'] ∨
    ∃ name, t = '{' :: name ++ ['}'] ∧ name ≠ [] ∧ ∀ c ∈ name, isWordChar c

/-- Substitution of concrete values into one scanned token: a `{name}`
slot becomes its value, glob tokens and the empty trailing token stay as
their own text. -/
def substTok (ν : Str → Str) (t : Str) : Str :=
  if t = [] then []
  else
    match parse_var_or_glob t with
    | .var n => ν n
    | _ => t

/-- Modelled from the spec: "a path built by substituting those values
into a pattern's variable slots" — the pattern's text with each `{name}`
token (as found by the compiler's own scanner) replaced by its value. -/
def substSegment (ν : Str → Str) (s : Str) : Str :=
  match find_match_segments s with
  | [] => s
  | pairs => pairs.flatMap (fun pr => pr.1 ++ substTok ν pr.2)

/-- The substituted path of a whole pattern. -/
def substPattern (ν : Str → Str) (expr : Str) : Str :=
  joinWith [osSep] ((splitChar osSep expr).map (substSegment ν))

/-- The structured view of one scanned segment (at most one token). -/
def segOf (seg : Str) : Seg :=
  match (scanAux seg.length [] seg).1 with
  | [] => .lit seg
  | (pre, tok) :: _ => .tok pre (parse_var_or_glob tok) ((scanAux seg.length [] seg).2)

/-! ## Lemmas and theorems -/

lemma head?_ne_of_not_mem {b : Str} (hb : osSep ∉ b) : b.head? ≠ some osSep := by
  cases b with
  | nil => simp
  | cons c t =>
      intro h
      have hc : c = osSep := by simpa using h
      exact hb (hc ▸ List.mem_cons_self c t)

lemma posixJoin_eq_dirPrefix {a b : Str} (hb : osSep ∉ b) :
    posixJoin a b = dirPrefix a ++ b := by
  unfold posixJoin dirPrefix
  rw [if_neg (head?_ne_of_not_mem hb)]
  by_cases ha : a = []
  · simp [ha]
  · by_cases hl : a.getLast? = some osSep
    · simp [ha, hl]
    · simp [ha, hl, List.append_assoc]

lemma takeWhile_append_of_all {p : Char → Bool} {l₁ l₂ : Str}
    (h : ∀ x ∈ l₁, p x) : (l₁ ++ l₂).takeWhile p = l₁ ++ l₂.takeWhile p := by
  induction l₁ with
  | nil => simp
  | cons a t ih =>
      simp only [List.cons_append, List.takeWhile_cons]
      rw [if_pos (h a (List.mem_cons_self a t)),
        ih (fun x hx => h x (List.mem_cons_of_mem a hx))]

/-- The base name of a joined path is the joined base, under
well-formedness. -/
lemma posixBasename_append {X b : Str} (hX : X = [] ∨ X.getLast? = some osSep)
    (hb : osSep ∉ b) : posixBasename (X ++ b) = b := by
  unfold posixBasename
  rw [List.reverse_append]
  have hall : ∀ x ∈ b.reverse, (fun c => decide (c ≠ osSep)) x = true := by
    intro x hx
    simp only [decide_eq_true_eq]
    intro he
    exact hb (he ▸ (List.mem_reverse.mp hx))
  rw [takeWhile_append_of_all hall]
  rcases hX with h | h
  · simp [h]
  · have : X.reverse.head? = some osSep := by
      rwa [List.head?_reverse]
    cases hXr : X.reverse with
    | nil => simp [hXr] at this
    | cons c t =>
        rw [hXr] at this
        simp only [List.head?_cons, Option.some.injEq] at this
        simp [hXr, List.takeWhile_cons, this]

lemma dirRecover_dirPrefix {d : Str}
    (hd : d = [osSep] ∨ d.getLast? ≠ some osSep) :
    dirRecover (dirPrefix d) = d := by
  rcases hd with h | h
  · subst h; simp [dirPrefix, dirRecover]
  · unfold dirPrefix
    by_cases hn : d = []
    · simp [hn, dirRecover]
    · rw [if_neg hn, if_neg h]
      unfold dirRecover
      have h1 : d ++ [osSep] ≠ [] := by simp
      have h2 : d ++ [osSep] ≠ [osSep] := by
        intro he
        have hl : d.length = 0 := by simpa using congrArg List.length he
        exact hn (List.length_eq_zero.mp hl)
      simp [h1, h2]

lemma dirPrefix_cases (d : Str) :
    dirPrefix d = [] ∨ (dirPrefix d).getLast? = some osSep := by
  unfold dirPrefix
  by_cases hn : d = []
  · simp [hn]
  · by_cases hl : d.getLast? = some osSep
    · simp [hn, hl]
    · right
      rw [if_neg hn, if_neg hl]
      exact List.getLast?_concat d

/-- Under well-formedness, `file_name` equality coincides with equality of
the `(dir_name, base_name)` path key. -/
lemma file_name_eq_iff {a b : FileInfo} (ha : wfRecord a) (hb : wfRecord b) :
    a.file_name = b.file_name ↔
      (a.dir_name = b.dir_name ∧ a.base_name = b.base_name) := by
  obtain ⟨-, ha2, ha3⟩ := ha
  obtain ⟨-, hb2, hb3⟩ := hb
  constructor
  · intro h
    unfold FileInfo.file_name at h
    rw [posixJoin_eq_dirPrefix ha2, posixJoin_eq_dirPrefix hb2] at h
    have hbase : a.base_name = b.base_name := by
      have h1 := posixBasename_append (b := a.base_name) (dirPrefix_cases a.dir_name) ha2
      have h2 := posixBasename_append (b := b.base_name) (dirPrefix_cases b.dir_name) hb2
      rw [← h1, ← h2, h]
    refine ⟨?_, hbase⟩
    rw [hbase] at h
    have hpre : dirPrefix a.dir_name = dirPrefix b.dir_name :=
      List.append_cancel_right h
    have := dirRecover_dirPrefix ha3
    rw [hpre, dirRecover_dirPrefix hb3] at this
    exact this.symm
  · rintro ⟨h1, h2⟩
    unfold FileInfo.file_name
    rw [h1, h2]

lemma diff_file_info_eq_eq {a b : FileInfo} (h1 : a.digest = b.digest)
    (h2 : a.file_name = b.file_name) : diff_file_info a b = none := by
  unfold diff_file_info
  simp [h1, h2]

lemma diff_file_info_ne_eq {a b : FileInfo} (h1 : a.digest ≠ b.digest)
    (h2 : a.file_name = b.file_name) :
    diff_file_info a b = some (.modified a b.modified b.size b.digest) := by
  unfold diff_file_info
  simp [h1, h2]

lemma diff_file_info_ne_ne {a b : FileInfo} (h1 : a.digest ≠ b.digest)
    (h2 : a.file_name ≠ b.file_name) : diff_file_info a b = none := by
  unfold diff_file_info
  simp [h1, h2]

/-- **C1.**  For a matched pair not flagged as a copy, with well-formed
path components, `diff`/`diff_file_info` classifies exactly as specified:
both keys equal → no action; path key equal, digest different →
`Modified` with the new modified/size/digest taken from the `N`-side;
digest equal, only the base name changed → `Renamed`; digest equal,
directory changed (with or without a base-name change) → `Archived` when
the `N`-side record's archived flag is set, else `Moved`. -/
theorem diff_classification (a b : FileInfo)
    (ha : wfRecord a) (hb : wfRecord b) :
    (a.digest = b.digest ∧ a.dir_name = b.dir_name ∧ a.base_name = b.base_name →
      diff (.originalAndNew a b false) = none)
    ∧ (a.digest ≠ b.digest ∧ a.dir_name = b.dir_name ∧ a.base_name = b.base_name →
      diff (.originalAndNew a b false) =
        some (.modified a b.modified b.size b.digest))
    ∧ (a.digest = b.digest ∧ a.dir_name = b.dir_name ∧ a.base_name ≠ b.base_name →
      diff (.originalAndNew a b false) =
        some (.renamed a b.base_name b.metadata))
    ∧ (a.digest = b.digest ∧ a.dir_name ≠ b.dir_name →
      diff (.originalAndNew a b false) =
        some (if b.archived then .archived a b.dir_name b.metadata
              else .moved a b.dir_name b.metadata)) := by
  have hdiff : diff (.originalAndNew a b false) = diff_file_info a b := by
    simp [diff]
  refine ⟨?_, ?_, ?_, ?_⟩
  · rintro ⟨h1, h2, h3⟩
    rw [hdiff]
    exact diff_file_info_eq_eq h1 ((file_name_eq_iff ha hb).mpr ⟨h2, h3⟩)
  · rintro ⟨h1, h2, h3⟩
    rw [hdiff]
    exact diff_file_info_ne_eq h1 ((file_name_eq_iff ha hb).mpr ⟨h2, h3⟩)
  · rintro ⟨h1, h2, h3⟩
    rw [hdiff]
    have hfn : a.file_name ≠ b.file_name := by
      intro h
      exact h3 ((file_name_eq_iff ha hb).mp h).2
    unfold diff_file_info
    simp [h1, hfn, h2, h3]
  · rintro ⟨h1, h2⟩
    rw [hdiff]
    have hfn : a.file_name ≠ b.file_name := by
      intro h
      exact h2 ((file_name_eq_iff ha hb).mp h).1
    unfold diff_file_info
    by_cases h3 : a.base_name = b.base_name
    · by_cases harch : b.archived <;> simp [h1, hfn, h2, h3, harch]
    · by_cases harch : b.archived <;> simp [h1, hfn, h2, h3, harch]

/-- **C1 witness.**  A concrete renamed pair: same digest, same directory,
different base name, classified as `Renamed`. -/
theorem diff_classification_witness :
    wfRecord ⟨[1], ['d'], ['x'], 0, 0, 3, false, none, none, []⟩ ∧
    wfRecord ⟨[1], ['d'], ['y'], 0, 0, 3, false, none, none, []⟩ ∧
    diff (.originalAndNew ⟨[1], ['d'], ['x'], 0, 0, 3, false, none, none, []⟩
        ⟨[1], ['d'], ['y'], 0, 0, 3, false, none, none, []⟩ false) =
      some (.renamed ⟨[1], ['d'], ['x'], 0, 0, 3, false, none, none, []⟩ ['y'] []) :=
  ⟨by decide, by decide,
    (diff_classification _ _ (by decide) (by decide)).2.2.1
      ⟨by decide, by decide, by decide⟩⟩

/-- **C4 counterexample.**  For a pair whose digest differs AND whose path
differs, classification does NOT fail loudly: `diff_file_info` silently
returns no action (the Python branch returns `None` with only a
"should not reach in practice" comment — there is no assertion and no
exception on this input). -/
theorem diff_mismatch_counterexample :
    diff (.originalAndNew ⟨[1], ['d'], ['x'], 0, 0, 3, false, none, none, []⟩
        ⟨[2], ['e'], ['y'], 0, 0, 4, false, none, none, []⟩ false) = none := by
  decide

/-- **C4 (amended).**  Classification never raises for well-formed inputs
(in this embedding `diff` is a total function into `Option Action`), and
for a matched pair whose digest differs AND whose path differs — a state
unreachable under a correct join — classification silently yields no
action (a defensive no-op), rather than failing with an assertion. -/
theorem diff_mismatch_is_silent_noop (a b : FileInfo)
    (h1 : a.digest ≠ b.digest) (h2 : a.file_name ≠ b.file_name) :
    diff (.originalAndNew a b false) = none := by
  have hdiff : diff (.originalAndNew a b false) = diff_file_info a b := by
    simp [diff]
  rw [hdiff]
  exact diff_file_info_ne_ne h1 h2

/-- **C4 witness.** -/
theorem diff_mismatch_is_silent_noop_witness :
    ([1] : Bytes) ≠ [2] ∧
    FileInfo.file_name ⟨[1], ['d'], ['x'], 0, 0, 3, false, none, none, []⟩ ≠
      FileInfo.file_name ⟨[2], ['e'], ['y'], 0, 0, 4, false, none, none, []⟩ ∧
    diff (.originalAndNew ⟨[1], ['d'], ['x'], 0, 0, 3, false, none, none, []⟩
        ⟨[2], ['e'], ['y'], 0, 0, 4, false, none, none, []⟩ false) = none :=
  ⟨by decide, by decide,
    diff_mismatch_is_silent_noop _ _ (by decide) (by decide)⟩

/-- **C10.**  `update` changes only the fields named by the action —
`Moved`: `dir_name` and `metadata`; `Renamed`: `base_name` and `metadata`;
`Archived`: `dir_name`, `metadata` and `archived := true`; `Modified`:
`digest`, `modified` and `size` — leaving every other field unchanged, and
returns the record entirely unchanged for `Created`, `Removed` and
`Copied`. -/
theorem update_frame (f orig nw cpy : FileInfo) (d bn : Str) (md : Tags)
    (ts sz : Int) (dg : Bytes) :
    (update f (.moved orig d md)).dir_name = d ∧
    (update f (.moved orig d md)).metadata = md ∧
    (update f (.moved orig d md)).digest = f.digest ∧
    (update f (.moved orig d md)).base_name = f.base_name ∧
    (update f (.moved orig d md)).created = f.created ∧
    (update f (.moved orig d md)).modified = f.modified ∧
    (update f (.moved orig d md)).size = f.size ∧
    (update f (.moved orig d md)).archived = f.archived ∧
    (update f (.moved orig d md)).file_group = f.file_group ∧
    (update f (.moved orig d md)).file_type = f.file_type ∧
    (update f (.renamed orig bn md)).base_name = bn ∧
    (update f (.renamed orig bn md)).metadata = md ∧
    (update f (.renamed orig bn md)).digest = f.digest ∧
    (update f (.renamed orig bn md)).dir_name = f.dir_name ∧
    (update f (.renamed orig bn md)).created = f.created ∧
    (update f (.renamed orig bn md)).modified = f.modified ∧
    (update f (.renamed orig bn md)).size = f.size ∧
    (update f (.renamed orig bn md)).archived = f.archived ∧
    (update f (.renamed orig bn md)).file_group = f.file_group ∧
    (update f (.renamed orig bn md)).file_type = f.file_type ∧
    (update f (.archived orig d md)).dir_name = d ∧
    (update f (.archived orig d md)).metadata = md ∧
    (update f (.archived orig d md)).archived = true ∧
    (update f (.archived orig d md)).digest = f.digest ∧
    (update f (.archived orig d md)).base_name = f.base_name ∧
    (update f (.archived orig d md)).created = f.created ∧
    (update f (.archived orig d md)).modified = f.modified ∧
    (update f (.archived orig d md)).size = f.size ∧
    (update f (.archived orig d md)).file_group = f.file_group ∧
    (update f (.archived orig d md)).file_type = f.file_type ∧
    (update f (.modified orig ts sz dg)).digest = dg ∧
    (update f (.modified orig ts sz dg)).modified = ts ∧
    (update f (.modified orig ts sz dg)).size = sz ∧
    (update f (.modified orig ts sz dg)).dir_name = f.dir_name ∧
    (update f (.modified orig ts sz dg)).base_name = f.base_name ∧
    (update f (.modified orig ts sz dg)).created = f.created ∧
    (update f (.modified orig ts sz dg)).archived = f.archived ∧
    (update f (.modified orig ts sz dg)).file_group = f.file_group ∧
    (update f (.modified orig ts sz dg)).file_type = f.file_type ∧
    (update f (.modified orig ts sz dg)).metadata = f.metadata ∧
    update f (.created nw) = f ∧
    update f (.removed orig) = f ∧
    update f (.copied orig cpy) = f := by
  repeat' apply And.intro
  all_goals rfl

lemma splitChar_ne_nil (sep : Char) (l : Str) : splitChar sep l ≠ [] := by
  induction l with
  | nil => simp [splitChar]
  | cons a t ih =>
      unfold splitChar at ih ⊢
      simp only [List.foldr_cons]
      cases h : t.foldr _ [[]] with
      | nil => exact absurd h ih
      | cons g gs =>
          by_cases ha : a = sep <;> simp [ha]

lemma splitChar_cons_sep (sep : Char) (l : Str) :
    splitChar sep (sep :: l) = [] :: splitChar sep l := by
  unfold splitChar
  simp only [List.foldr_cons]
  cases h : l.foldr _ [[]] with
  | nil => exact absurd h (by simpa [splitChar] using splitChar_ne_nil sep l)
  | cons g gs => simp

lemma splitChar_cons_ne {sep a : Char} (h : a ≠ sep) {l : Str} {g : Str}
    {gs : List Str} (hl : splitChar sep l = g :: gs) :
    splitChar sep (a :: l) = (a :: g) :: gs := by
  unfold splitChar at hl ⊢
  simp only [List.foldr_cons, hl]
  simp [h]

lemma splitChar_sepFree {sep : Char} {p : Str} (h : sep ∉ p) :
    splitChar sep p = [p] := by
  induction p with
  | nil => simp [splitChar]
  | cons a t ih =>
      have ha : a ≠ sep := fun he => h (he ▸ List.mem_cons_self a t)
      exact splitChar_cons_ne ha (ih (fun hm => h (List.mem_cons_of_mem a hm)))

lemma splitChar_append_sep {sep : Char} {p : Str} (h : sep ∉ p) (l : Str) :
    splitChar sep (p ++ sep :: l) = p :: splitChar sep l := by
  induction p with
  | nil => simpa using splitChar_cons_sep sep l
  | cons a t ih =>
      have ha : a ≠ sep := fun he => h (he ▸ List.mem_cons_self a t)
      have ht : sep ∉ t := fun hm => h (List.mem_cons_of_mem a hm)
      exact splitChar_cons_ne ha (ih ht)

lemma splitChar_append_last (sep : Char) (l : Str) :
    splitChar sep (l ++ [sep]) = splitChar sep l ++ [[]] := by
  induction l with
  | nil => simp [splitChar]
  | cons a t ih =>
      by_cases ha : a = sep
      · subst ha
        rw [List.cons_append, splitChar_cons_sep, splitChar_cons_sep, ih,
          List.cons_append]
      · cases h : splitChar sep t with
        | nil => exact absurd h (splitChar_ne_nil sep t)
        | cons g gs =>
            rw [List.cons_append, splitChar_cons_ne ha (h ▸ ih),
              splitChar_cons_ne ha h, List.cons_append]
            rfl

lemma splitChar_joinWith {sep : Char} {parts : List Str}
    (hne : parts ≠ []) (hfree : ∀ p ∈ parts, sep ∉ p) :
    splitChar sep (joinWith [sep] parts) = parts := by
  induction parts with
  | nil => exact absurd rfl hne
  | cons p ps ih =>
      cases ps with
      | nil =>
          exact splitChar_sepFree (hfree p (List.mem_cons_self p []))
      | cons q qs =>
          show splitChar sep (p ++ [sep] ++ joinWith [sep] (q :: qs)) = _
          rw [List.append_assoc, List.singleton_append,
            splitChar_append_sep (hfree p (List.mem_cons_self p _)),
            ih (by simp) (fun x hx => hfree x (List.mem_cons_of_mem p hx))]

lemma filter_nonempty_wrap (parts : List Str) (hp : ∀ p ∈ parts, p ≠ []) :
    (([] : Str) :: (parts ++ [[]])).filter (fun t => t.length > 0) = parts := by
  have h2 : parts.filter (fun t => t.length > 0) = parts := by
    apply List.filter_eq_self.mpr
    intro p hmem
    simpa [List.length_pos] using hp p hmem
  simp only [List.filter_cons, List.filter_append]
  simp [h2]

lemma mapOrFail_map {f : β → Option α} {g : α → β} {l : List α}
    (h : ∀ x ∈ l, f (g x) = some x) : mapOrFail f (l.map g) = some l := by
  induction l with
  | nil => simp [mapOrFail]
  | cons a t ih =>
      simp only [List.map_cons, mapOrFail]
      rw [h a (List.mem_cons_self a t), ih (fun x hx => h x (List.mem_cons_of_mem a hx))]

/-- **C5 counterexample.**  The round trip is not the identity for every
metadata map: serialization lowercases (and strips) keys, so a map with an
upper-case key comes back changed. -/
theorem tags_roundtrip_counterexample :
    deserialized_tags (serialized_tags [(['A'], ['b'])]) ≠
      some [(['A'], ['b'])] := by
  decide

/-- **C5 (amended).**  For a metadata map in canonical form — pairs in
sorted key order, each key fixed by lower-casing and stripping, and keys
and values free of the `/` delimiter and the `:` separator — deserializing
the serialization returns the map exactly. -/
theorem tags_roundtrip (m : Tags) (hsorted : sortPairs m = m)
    (hcanon : ∀ kv ∈ m, pyStrip (pyLower kv.1) = kv.1)
    (hfree : ∀ kv ∈ m, TAG_DELIMITER ∉ kv.1 ∧ TAG_VALUE_DELIMITER ∉ kv.1 ∧
      TAG_DELIMITER ∉ kv.2 ∧ TAG_VALUE_DELIMITER ∉ kv.2) :
    deserialized_tags (serialized_tags m) = some m := by
  by_cases hm : m = []
  · subst hm
    decide
  · unfold serialized_tags
    rw [if_neg hm, hsorted]
    unfold deserialized_tags
    have hser_free : ∀ p ∈ m.map (fun kv => serialized_tag kv.1 kv.2),
        TAG_DELIMITER ∉ p := by
      intro p hp
      obtain ⟨kv, hkv, rfl⟩ := List.mem_map.mp hp
      unfold serialized_tag
      rw [hcanon kv hkv]
      intro hmem
      rcases List.mem_append.mp hmem with h | h
      · exact (hfree kv hkv).1 h
      · rcases List.mem_cons.mp h with h | h
        · exact absurd h (by decide)
        · exact (hfree kv hkv).2.2.1 h
    have hmapne : m.map (fun kv => serialized_tag kv.1 kv.2) ≠ [] := by
      simpa using hm
    rw [List.cons_append, splitChar_cons_sep, splitChar_append_last,
      splitChar_joinWith hmapne hser_free]
    rw [filter_nonempty_wrap _ (by
      intro p hp
      obtain ⟨kv, _, rfl⟩ := List.mem_map.mp hp
      simp [serialized_tag])]
    apply mapOrFail_map
    intro kv hkv
    unfold deserialize_tag serialized_tag
    rw [hcanon kv hkv,
      @splitChar_append_sep TAG_VALUE_DELIMITER _ (hfree kv hkv).2.1,
      splitChar_sepFree (hfree kv hkv).2.2.2]

/-- **C5 witness.** -/
theorem tags_roundtrip_witness :
    sortPairs [(['a'], ['1']), (['b'], ['2'])] = [(['a'], ['1']), (['b'], ['2'])] ∧
    deserialized_tags (serialized_tags [(['a'], ['1']), (['b'], ['2'])]) =
      some [(['a'], ['1']), (['b'], ['2'])] :=
  ⟨by decide,
    tags_roundtrip _ (by decide) (by decide) (by decide)⟩

lemma branchPrevOnly_eq_nil (cd : Bool) (pid nid : ImportId)
    (table : List Cols) : branchPrevOnly cd pid nid table = [] := by
  unfold branchPrevOnly
  apply List.flatMap_eq_nil_iff.mpr
  intro p _
  apply List.filterMap_eq_nil_iff.mpr
  intro nOpt _
  cases nOpt <;> simp

lemma branchNextOnly_eq_nil (cd : Bool) (pid nid : ImportId)
    (table : List Cols) : branchNextOnly cd pid nid table = [] := by
  unfold branchNextOnly
  apply List.flatMap_eq_nil_iff.mpr
  intro n _
  apply List.filterMap_eq_nil_iff.mpr
  intro pOpt _
  cases pOpt <;> simp

/-- **C3.**  The pipeline can never produce a `Removed` action, contrary
to the spec's PrevOnly rule, for two independent reasons exhibited here:
(1) the prev-only and next-only branches of the compare query are
identically empty — their `WHERE` clauses compare the `import_id` of the
NULL side of the outer join, which is never TRUE (and the join, lacking
an import filter in its `ON` clause, lets every row match itself anyway); a
snapshot pair `P = {f}`, `N = {}` therefore yields no rows at all; and
(2) even handed a prev-only row, `deserialized_file_info_compare` rebuilds
the `OriginalOnly` record from the `"_next"`-suffixed columns, which are
NULL on such a row, so it raises a `TypeError` instead of building the
record from the prev-side columns. -/
theorem prev_only_never_removed :
    (∀ (cd : Bool) (pid nid : ImportId) (table : List Cols),
      branchPrevOnly cd pid nid table = [] ∧
      branchNextOnly cd pid nid table = []) ∧
    sql_select_file_import_compare true [0] [1]
      [⟨[9], ['a'], ['x'], 0, 0, 3, 0, none, none, [], [0]⟩] = [] ∧
    deserialized_file_info_compare
      ⟨some ⟨[9], ['a'], ['x'], 0, 0, 3, 0, none, none, [], [0]⟩, none, 0⟩ =
      .error "TypeError: NoneType" := by
  refine ⟨fun cd pid nid table =>
    ⟨branchPrevOnly_eq_nil cd pid nid table,
      branchNextOnly_eq_nil cd pid nid table⟩, by decide, by rfl⟩

/-- **C2.**  The copied tie-break: with `P = {f}` and
`N = {f (unchanged), f' (same content key, different path key)}`, the
compare query marks the `(f, f')` pair `__copied__` (its content key has a
full match), deserialization turns that into an `is_copy` state, and
classification emits exactly `{Copied{original = f, copy = f'}}` — the
unchanged pair contributes no action and the renamed/moved branch is
suppressed by the anti-join. -/
theorem copied_pair_classification
    (cd : Bool) (pid nid : ImportId) (p n' : Cols) (f f' : FileInfo)
    (hpn : pid ≠ nid)
    (hpi : p.import_id = pid) (hni : n'.import_id = nid)
    (hc : contentsMatch cd p n' = true)
    (hpath : colsPathMatch p n' = false)
    (hdp : deserialized_file_info (some p) = .ok f)
    (hdn : deserialized_file_info (some n') = .ok f') :
    compareActions cd pid nid [p, { p with import_id := nid }, n'] =
      .ok [.copied f f'] := by
  have hnp : nid ≠ pid := hpn.symm
  have hcnn : contentsMatch cd p { p with import_id := nid } = true := by
    cases cd <;> simp [contentsMatch]
  have hpnn : colsPathMatch p { p with import_id := nid } = true := by
    simp [colsPathMatch]
  have hfmk : fullMatchKey cd p (p.digest, p.size, p.modified) = true := by
    cases cd <;> simp [fullMatchKey]
  have hfm : fullMatches cd pid nid [p, { p with import_id := nid }, n'] =
      [(p.digest, p.size, p.modified)] := by
    simp [fullMatches, hpi, hni, hpn, hnp, hc, hpath, hcnn, hpnn]
  have hren : branchRenamed cd pid nid [p, { p with import_id := nid }, n'] = [] := by
    simp [branchRenamed, hfm, hpi, hni, hpn, hnp, hc, hpath, hcnn, hpnn, hfmk]
  have hcp : branchCopied cd pid nid [p, { p with import_id := nid }, n'] =
      [⟨some p, some n', 1⟩] := by
    simp [branchCopied, hfm, hpi, hni, hpn, hnp, hc, hpath, hcnn, hpnn, hfmk]
  have hmod : branchModified cd pid nid [p, { p with import_id := nid }, n'] = [] := by
    simp [branchModified, hpi, hni, hpn, hnp, hc, hpath, hcnn, hpnn]
  have hnc : branchNoChange cd pid nid [p, { p with import_id := nid }, n'] =
      [⟨some p, some { p with import_id := nid }, 0⟩] := by
    simp [branchNoChange, hpi, hni, hpn, hnp, hc, hpath, hcnn, hpnn]
  have hsel : sql_select_file_import_compare cd pid nid
      [p, { p with import_id := nid }, n'] =
      [⟨some p, some n', 1⟩, ⟨some p, some { p with import_id := nid }, 0⟩] := by
    unfold sql_select_file_import_compare
    rw [branchPrevOnly_eq_nil, branchNextOnly_eq_nil, hren, hcp, hmod, hnc]
    have hne1 : (⟨some p, some n', 1⟩ : CompareRow) ∉
        [(⟨some p, some { p with import_id := nid }, 0⟩ : CompareRow)] := by
      simp
    simp only [List.nil_append, List.append_nil, List.singleton_append]
    rw [List.dedup_cons_of_not_mem hne1,
      List.dedup_cons_of_not_mem (List.not_mem_nil _), List.dedup_nil]
  have hdnn : deserialized_file_info (some { p with import_id := nid }) = .ok f := hdp
  have hd1 : deserialized_file_info_compare ⟨some p, some n', 1⟩ =
      .ok (.originalAndNew f f' true) := by
    simp [deserialized_file_info_compare, hdp, hdn]
  have hd2 : deserialized_file_info_compare
      ⟨some p, some { p with import_id := nid }, 0⟩ =
      .ok (.originalAndNew f f false) := by
    simp [deserialized_file_info_compare, hdp, hdnn]
  have hfself : diff_file_info f f = none := diff_file_info_eq_eq rfl rfl
  unfold compareActions
  rw [hsel]
  simp [mapOrFailE, hd1, hd2, diff_all, diff, hfself]

/-- **C2 witness.** -/
theorem copied_pair_classification_witness :
    (([0] : ImportId) ≠ [1]) ∧
    contentsMatch true ⟨[9], ['a'], ['x'], 0, 0, 3, 0, none, none, [], [0]⟩
      ⟨[9], ['b'], ['x'], 0, 0, 3, 0, none, none, [], [1]⟩ = true ∧
    colsPathMatch ⟨[9], ['a'], ['x'], 0, 0, 3, 0, none, none, [], [0]⟩
      ⟨[9], ['b'], ['x'], 0, 0, 3, 0, none, none, [], [1]⟩ = false ∧
    compareActions true [0] [1]
      [⟨[9], ['a'], ['x'], 0, 0, 3, 0, none, none, [], [0]⟩,
       ⟨[9], ['a'], ['x'], 0, 0, 3, 0, none, none, [], [1]⟩,
       ⟨[9], ['b'], ['x'], 0, 0, 3, 0, none, none, [], [1]⟩] =
      .ok [.copied
        ⟨[9], ['a'], ['x'], 0, 0, 3, false, some "None".toList, some "None".toList, []⟩
        ⟨[9], ['b'], ['x'], 0, 0, 3, false, some "None".toList, some "None".toList, []⟩] :=
  ⟨by decide, by decide, by decide,
    copied_pair_classification true [0] [1] _ _ _ _
      (by decide) rfl rfl (by decide) (by decide) (by rfl) (by rfl)⟩

lemma length_dropWhile_le (p : Char → Bool) (l : Str) :
    (l.dropWhile p).length ≤ l.length := by
  induction l with
  | nil => simp
  | cons a t ih =>
      rw [List.dropWhile_cons]
      by_cases hp : p a = true
      · simp only [hp, if_true]
        exact Nat.le_succ_of_le ih
      · simp [hp]

lemma matchVarAt_rest_lt {s tok rest : Str}
    (h : matchVarAt s = some (tok, rest)) : rest.length < s.length := by
  cases s with
  | nil => simp [matchVarAt] at h
  | cons c t =>
      simp only [matchVarAt] at h
      split_ifs at h with h1 h2
      · have hr : rest = (t.dropWhile isWordChar).tail := by
          simpa using (congrArg Prod.snd (Option.some.inj h)).symm
        have hlen : (t.dropWhile isWordChar).length ≤ t.length :=
          length_dropWhile_le _ _
        have hne : t.dropWhile isWordChar ≠ [] := by
          intro he
          rw [he] at h2
          simp at h2
        have htail : ((t.dropWhile isWordChar).tail).length =
            (t.dropWhile isWordChar).length - 1 := List.length_tail _
        have hpos : 0 < (t.dropWhile isWordChar).length :=
          List.length_pos.mpr hne
        rw [hr, htail]
        simp only [List.length_cons]
        omega

lemma matchTokenAt_rest_lt {s tok rest : Str}
    (h : matchTokenAt s = some (tok, rest)) : rest.length < s.length := by
  unfold matchTokenAt at h
  cases hv : matchVarAt s with
  | some r =>
      rw [hv] at h
      simp only [Option.some.injEq] at h
      exact matchVarAt_rest_lt (h ▸ hv)
  | none =>
      rw [hv] at h
      simp only at h
      split_ifs at h with h1 h2
      · have hr : rest = s.drop 2 := by
          simpa using (congrArg Prod.snd (Option.some.inj h)).symm
        have h2le : 2 ≤ s.length := by
          have := congrArg List.length h1
          simp at this
          omega
        rw [hr, List.length_drop]
        omega
      · have hr : rest = s.drop 1 := by
          simpa using (congrArg Prod.snd (Option.some.inj h)).symm
        have h1le : 1 ≤ s.length := by
          have := congrArg List.length h2
          simp at this
          omega
        rw [hr, List.length_drop]
        omega

lemma mem_descList {n m : Nat} : n ∈ descList m ↔ 1 ≤ n ∧ n ≤ m := by
  induction m with
  | zero =>
      simp only [descList, List.not_mem_nil, false_iff]
      omega
  | succ k ih =>
      simp only [descList, List.mem_cons, ih]
      omega

lemma findSome?_isSome_of_mem {α β : Type} {f : α → Option β} {l : List α}
    {a : α} (ha : a ∈ l) (hf : (f a).isSome = true) :
    (l.findSome? f).isSome = true := by
  induction l with
  | nil => simp at ha
  | cons x t ih =>
      rw [List.findSome?_cons]
      cases hx : f x with
      | some b => simp
      | none =>
          rcases List.mem_cons.mp ha with rfl | hmem
          · rw [hx] at hf; simp at hf
          · exact ih hmem

lemma isSome_exists_of_findSome? {α β : Type} {f : α → Option β}
    {l : List α} (h : (l.findSome? f).isSome = true) :
    ∃ a ∈ l, (f a).isSome = true := by
  induction l with
  | nil => simp [List.findSome?_nil] at h
  | cons x t ih =>
      rw [List.findSome?_cons] at h
      cases hx : f x with
      | some b => exact ⟨x, List.mem_cons_self x t, by simp [hx]⟩
      | none =>
          rw [hx] at h
          obtain ⟨a, ha, hfa⟩ := ih h
          exact ⟨a, List.mem_cons_of_mem x ha, hfa⟩

lemma ciStarts_length_le {l s : Str} (h : ciStarts l s = true) :
    l.length ≤ s.length := by
  induction l generalizing s with
  | nil => simp
  | cons a t ih =>
      cases s with
      | nil => simp [ciStarts] at h
      | cons b s' =>
          simp only [ciStarts, Bool.and_eq_true] at h
          simpa using ih h.2

lemma ciStarts_of_take {l s : Str} {k : Nat}
    (h : ciStarts l (s.take k) = true) : ciStarts l s = true := by
  induction l generalizing s k with
  | nil => simp [ciStarts]
  | cons a t ih =>
      cases s with
      | nil => simpa using h
      | cons b s' =>
          cases k with
          | zero => simp [ciStarts] at h
          | succ k' =>
              simp only [List.take_succ_cons, ciStarts, Bool.and_eq_true] at h ⊢
              exact ⟨h.1, ih h.2⟩

lemma ciStarts_take_of_le {l s : Str} {m : Nat} (hm : l.length ≤ m)
    (h : ciStarts l s = true) : ciStarts l (s.take m) = true := by
  induction l generalizing s m with
  | nil => simp [ciStarts]
  | cons a t ih =>
      cases s with
      | nil => simp [ciStarts] at h
      | cons b s' =>
          cases m with
          | zero => simp at hm
          | succ m' =>
              simp only [ciStarts, Bool.and_eq_true] at h
              simp only [List.take_succ_cons, ciStarts, Bool.and_eq_true]
              exact ⟨h.1, ih (by simpa using hm) h.2⟩

lemma isSome_map_opt {α β : Type} (g : α → β) (m : Option α) :
    (Option.map g m).isSome = m.isSome := by
  cases m <;> rfl

/-- Soundness half of the anchoring characterization: when `re.match`
succeeds, some prefix of the path is fully matched. -/
lemma matchPieces_isSome_imp {ps : List Piece} {s : Str}
    (h : (matchPieces ps s).isSome = true) :
    ∃ k, k ≤ s.length ∧ (matchPiecesFull ps (s.take k)).isSome = true := by
  induction ps generalizing s with
  | nil =>
      exact ⟨0, Nat.zero_le _, by simp [matchPiecesFull]⟩
  | cons p ps ih =>
      cases p with
      | lit l =>
          simp only [matchPieces] at h
          split_ifs at h with hci
          · obtain ⟨k, hk, hfull⟩ := ih h
            refine ⟨l.length + k, ?_, ?_⟩
            · have h1 := ciStarts_length_le hci
              have h2 : k ≤ s.length - l.length := by
                simpa using hk
              omega
            · simp only [matchPiecesFull]
              rw [if_pos (ciStarts_take_of_le (by omega) hci)]
              rw [List.drop_take, Nat.add_sub_cancel_left]
              exact hfull
          · simp at h
      | star =>
          simp only [matchPieces] at h
          obtain ⟨n, hn, hfn⟩ := isSome_exists_of_findSome? h
          obtain ⟨h1n, hns⟩ := mem_descList.mp hn
          split_ifs at hfn with hsep
          · obtain ⟨k, hk, hfull⟩ := ih hfn
            refine ⟨n + k, ?_, ?_⟩
            · have : k ≤ s.length - n := by simpa using hk
              omega
            · simp only [matchPiecesFull]
              apply findSome?_isSome_of_mem (a := n)
              · rw [mem_descList]
                constructor
                · exact h1n
                · rw [List.length_take]
                  omega
              · rw [List.take_take, min_eq_left (by omega), if_pos hsep,
                  List.drop_take, Nat.add_sub_cancel_left]
                exact hfull
          · simp at hfn
      | dstar =>
          simp only [matchPieces] at h
          obtain ⟨n, hn, hfn⟩ := isSome_exists_of_findSome? h
          obtain ⟨h1n, hns⟩ := mem_descList.mp hn
          obtain ⟨k, hk, hfull⟩ := ih hfn
          refine ⟨n + k, ?_, ?_⟩
          · have : k ≤ s.length - n := by simpa using hk
            omega
          · simp only [matchPiecesFull]
            apply findSome?_isSome_of_mem (a := n)
            · rw [mem_descList]
              constructor
              · exact h1n
              · rw [List.length_take]
                omega
            · rw [List.drop_take, Nat.add_sub_cancel_left]
              exact hfull
      | var x =>
          simp only [matchPieces] at h
          obtain ⟨n, hn, hfn⟩ := isSome_exists_of_findSome? h
          obtain ⟨h1n, hns⟩ := mem_descList.mp hn
          split_ifs at hfn with hsep
          · rw [isSome_map_opt] at hfn
            obtain ⟨k, hk, hfull⟩ := ih hfn
            refine ⟨n + k, ?_, ?_⟩
            · have : k ≤ s.length - n := by simpa using hk
              omega
            · simp only [matchPiecesFull]
              apply findSome?_isSome_of_mem (a := n)
              · rw [mem_descList]
                constructor
                · exact h1n
                · rw [List.length_take]
                  omega
              · rw [List.take_take, min_eq_left (by omega), if_pos hsep,
                  List.drop_take, Nat.add_sub_cancel_left, isSome_map_opt]
                exact hfull
          · simp at hfn

/-- Completeness half: if some prefix fully matches, `re.match`'s
backtracking search succeeds. -/
lemma matchPieces_isSome_of_full {ps : List Piece} {s : Str} {k : Nat}
    (h : (matchPiecesFull ps (s.take k)).isSome = true) :
    (matchPieces ps s).isSome = true := by
  induction ps generalizing s k with
  | nil => simp [matchPieces]
  | cons p ps ih =>
      cases p with
      | lit l =>
          simp only [matchPiecesFull] at h
          split_ifs at h with hci
          · simp only [matchPieces]
            rw [if_pos (ciStarts_of_take hci)]
            rw [List.drop_take] at h
            exact ih h
          · simp at h
      | star =>
          simp only [matchPiecesFull] at h
          obtain ⟨n, hn, hfn⟩ := isSome_exists_of_findSome? h
          obtain ⟨h1n, hns⟩ := mem_descList.mp hn
          rw [List.length_take] at hns
          split_ifs at hfn with hsep
          · rw [List.take_take, min_eq_left (by omega)] at hsep
            rw [List.drop_take] at hfn
            simp only [matchPieces]
            apply findSome?_isSome_of_mem (a := n)
            · rw [mem_descList]
              omega
            · rw [if_pos hsep]
              exact ih hfn
          · simp at hfn
      | dstar =>
          simp only [matchPiecesFull] at h
          obtain ⟨n, hn, hfn⟩ := isSome_exists_of_findSome? h
          obtain ⟨h1n, hns⟩ := mem_descList.mp hn
          rw [List.length_take] at hns
          rw [List.drop_take] at hfn
          simp only [matchPieces]
          apply findSome?_isSome_of_mem (a := n)
          · rw [mem_descList]
            omega
          · exact ih hfn
      | var x =>
          simp only [matchPiecesFull] at h
          obtain ⟨n, hn, hfn⟩ := isSome_exists_of_findSome? h
          obtain ⟨h1n, hns⟩ := mem_descList.mp hn
          rw [List.length_take] at hns
          split_ifs at hfn with hsep
          · rw [List.take_take, min_eq_left (by omega)] at hsep
            rw [isSome_map_opt] at hfn
            rw [List.drop_take] at hfn
            simp only [matchPieces]
            apply findSome?_isSome_of_mem (a := n)
            · rw [mem_descList]
              omega
            · rw [if_pos hsep, isSome_map_opt]
              exact ih hfn
          · simp at hfn

/-- **C7 counterexample.**  The matcher compiled from pattern `"a"`
accepts the path `"ab"` and returns its (empty) capture map, although the
compiled pattern matches only the prefix `"a"`, not the entire path: the
compiled expression carries no end anchor and `re.match` only anchors at
the start. -/
theorem matcher_prefix_counterexample :
    compiled_match_expr "a".toList = .ok [.lit ['a']] ∧
    matcherMatch [.lit ['a']] "ab".toList = some [] ∧
    matchPiecesFull [.lit ['a']] "ab".toList = none :=
  ⟨by rfl, by decide, by decide⟩

/-- **C7 (amended).**  `matcher.match(path)` applies the compiled pattern
anchored at the START of the path only: it returns a captured map exactly
when some prefix of the path is fully matched by the compiled pattern —
matching the entire path is not required. -/
theorem matcher_match_anchored_at_start (ps : List Piece) (path : Str) :
    (matcherMatch ps path).isSome = true ↔
      ∃ k, k ≤ path.length ∧ (matchPiecesFull ps (path.take k)).isSome = true := by
  constructor
  · exact matchPieces_isSome_imp
  · rintro ⟨k, -, hk⟩
    exact matchPieces_isSome_of_full hk

/-- **C8 counterexample.**  A pattern with an unbalanced brace does NOT
fail at compile time: `"{a"` finds no variable token, is escaped as
literal text, and compiles successfully. -/
theorem unbalanced_brace_compiles :
    compiled_match_expr "\x7ba".toList = .ok [.lit "\x7ba".toList] := by rfl

/-- **C8 (amended).**  Compiling fails with a `PatternError` when the
pattern's variable tokens give invalid or duplicate regex group names
(e.g. a duplicated variable, or a name starting with a digit) — and
exactly then: a successfully compiling pattern is precisely one whose
variable names are valid and distinct, so unbalanced braces (treated as
literal text) do not fail.  For every pattern that compiles, matching any
path is a total function into an optional capture map: no pattern error
can surface during matching. -/
theorem compile_time_pattern_errors :
    compiled_match_expr "{a}/{a}".toList = .error "PatternError".toList ∧
    compiled_match_expr "{1}".toList = .error "PatternError".toList ∧
    (∀ expr : Str, (compiled_match_expr expr).isOk = true ↔
      ((pieceVarNames (exprPieces expr)).all validGroupName = true ∧
        (pieceVarNames (exprPieces expr)).Nodup)) ∧
    (∀ (expr : Str) (ps : List Piece) (path : Str),
      compiled_match_expr expr = .ok ps →
      (matcherMatch ps path).isSome = true ∨ (matcherMatch ps path).isNone = true) := by
  refine ⟨by rfl, by rfl, ?_, ?_⟩
  · intro expr
    unfold compiled_match_expr
    split_ifs with hc
    · simp only [iff_true_intro hc, iff_true]
      rfl
    · simp only [iff_false_intro hc, iff_false]
      intro h
      simp [Except.isOk, Except.toBool] at h
  · intro expr ps path _
    cases h : matcherMatch ps path <;> simp

/-- **C8 witness** for the universally quantified parts: the pattern
`"{a}"` compiles, and matching is total on it. -/
theorem compile_time_pattern_errors_witness :
    compiled_match_expr "{a}".toList = .ok [.lit [], .var ['a'], .lit []] ∧
    ((matcherMatch [.lit [], .var ['a'], .lit []] "x".toList).isSome = true ∨
      (matcherMatch [.lit [], .var ['a'], .lit []] "x".toList).isNone = true) :=
  ⟨by rfl,
    compile_time_pattern_errors.2.2.2 "{a}".toList _ "x".toList (by rfl)⟩

/-- **C9.**  A scanned file matching no configured pattern in any
category is recorded with the empty digest sentinel even when digesting
is enabled for the scan (and with empty metadata, no file type): the
digest is computed only for files that matched some pattern. -/
theorem unmatched_file_empty_digest
    (entries : List FsEntry) (matchers : List (Str × List (List Piece)))
    (gather_digests : Bool) (is_archived : Option (Tags → Bool))
    (calc_file_group : Option (Tags → Option Str)) (e : FsEntry)
    (he : e ∈ entries) (hf : e.is_file = true)
    (hm : match_file_type_and_metadata e.fname matchers = none) :
    (searchRecord gather_digests is_archived calc_file_group matchers e).digest
      = [] ∧
    (searchRecord gather_digests is_archived calc_file_group matchers e).metadata
      = [] ∧
    (searchRecord gather_digests is_archived calc_file_group matchers e).file_type
      = none ∧
    searchRecord gather_digests is_archived calc_file_group matchers e ∈
      search entries matchers gather_digests is_archived calc_file_group := by
  have hrec : searchRecord gather_digests is_archived calc_file_group matchers e =
      fetch_file_info e false false none none [] := by
    unfold searchRecord
    rw [hm]
  refine ⟨by rw [hrec]; rfl, by rw [hrec]; rfl, by rw [hrec]; rfl, ?_⟩
  unfold search
  exact List.mem_map_of_mem _ (List.mem_filter.mpr ⟨he, hf⟩)

/-- **C9 witness.**  A file whose path matches neither configured pattern
is recorded with the empty digest although `gather_digests` is on. -/
theorem unmatched_file_empty_digest_witness :
    (⟨"d/y".toList, true, 5, 0, 0, [7]⟩ : FsEntry) ∈
      [(⟨"d/y".toList, true, 5, 0, 0, [7]⟩ : FsEntry)] ∧
    (⟨"d/y".toList, true, 5, 0, 0, [7]⟩ : FsEntry).is_file = true ∧
    match_file_type_and_metadata "d/y".toList
      [(['c'], [[Piece.lit "x".toList]])] = none ∧
    (searchRecord true none none [(['c'], [[Piece.lit "x".toList]])]
      ⟨"d/y".toList, true, 5, 0, 0, [7]⟩).digest = [] :=
  ⟨by decide, by decide, by decide,
    (unmatched_file_empty_digest
      [⟨"d/y".toList, true, 5, 0, 0, [7]⟩] [(['c'], [[Piece.lit "x".toList]])]
      true none none _ (by decide) (by decide) (by decide)).1⟩

lemma ciEq_refl (a : Char) : ciEq a a = true := by simp [ciEq]

lemma toNat_ofNat_valid {m : Nat} (h : m < 55296) :
    (Char.ofNat m).toNat = m := by
  unfold Char.ofNat
  rw [dif_pos (Or.inl h)]
  rfl

lemma toLower_eq_sep {c : Char} (h : c.toLower = osSep) : c = osSep := by
  simp only [Char.toLower] at h
  split_ifs at h with hr
  · exfalso
    obtain ⟨h1, h2⟩ := hr
    have hv : (Char.ofNat (c.toNat + 32)).toNat = c.toNat + 32 :=
      toNat_ofNat_valid (by omega)
    rw [h] at hv
    have h47 : osSep.toNat = 47 := by decide
    omega
  · exact h

/-- Case-insensitive equality cannot identify the separator with any
other character. -/
lemma ciEq_sep_iff {a b : Char} (h : ciEq a b = true) :
    a = osSep ↔ b = osSep := by
  simp only [ciEq, decide_eq_true_eq] at h
  constructor
  · intro ha
    subst ha
    apply toLower_eq_sep
    rw [← h]
    rfl
  · intro hb
    subst hb
    apply toLower_eq_sep
    rw [h]
    rfl

lemma ciStarts_refl_append (l r : Str) : ciStarts l (l ++ r) = true := by
  induction l with
  | nil => simp [ciStarts]
  | cons a t ih => simp [ciStarts, ciEq_refl, ih]

lemma ciStarts_false_of_short {l s : Str} (h : s.length < l.length) :
    ciStarts l s = false := by
  by_contra hc
  have := ciStarts_length_le (by simpa using Bool.of_not_eq_false hc)
  omega

/-- A matched literal consumes exactly as many separators as it holds. -/
lemma ciStarts_sepCount_take {l s : Str} (h : ciStarts l s = true) :
    sepCount (s.take l.length) = sepCount l := by
  induction l generalizing s with
  | nil => simp [sepCount]
  | cons a t ih =>
      cases s with
      | nil => simp [ciStarts] at h
      | cons b s' =>
          simp only [ciStarts, Bool.and_eq_true] at h
          simp only [List.length_cons, List.take_succ_cons]
          unfold sepCount
          rw [List.count_cons, List.count_cons]
          have hiff := ciEq_sep_iff h.1
          have : (b == osSep) = (a == osSep) := by
            by_cases hb : b = osSep
            · simp [hb, hiff.mpr hb]
            · have ha : ¬ a = osSep := fun ha => hb (hiff.mp ha)
              simp [hb, ha]
          rw [this]
          have := ih h.2
          unfold sepCount at this
          omega

lemma ciStarts_drop_nosep {l s : Str} (h : ciStarts l s = true)
    (hl : osSep ∉ l) : osSep ∉ s.take l.length := by
  intro hmem
  have hc := ciStarts_sepCount_take h
  have h0 : sepCount l = 0 := by
    unfold sepCount
    exact List.count_eq_zero.mpr hl
  rw [h0] at hc
  exact (List.count_eq_zero.mp hc) hmem

lemma sepCount_append (l r : Str) :
    sepCount (l ++ r) = sepCount l + sepCount r := by
  unfold sepCount
  exact List.count_append _ _ _

lemma sepCount_take_drop (s : Str) (n : Nat) :
    sepCount s = sepCount (s.take n) + sepCount (s.drop n) := by
  conv_lhs => rw [← List.take_append_drop n s]
  exact sepCount_append _ _

lemma sepCount_eq_zero {l : Str} (h : osSep ∉ l) : sepCount l = 0 :=
  List.count_eq_zero.mpr h

lemma sepCount_drop_le (s : Str) (n : Nat) :
    sepCount (s.drop n) ≤ sepCount s := by
  rw [sepCount_take_drop s n]
  omega

/-- A successful match needs at least as many separators in the input as
its literal pieces demand. -/
lemma matchPieces_sepCount {ps : List Piece} {s : Str} {caps : Tags}
    (h : matchPieces ps s = some caps) : sepPieces ps ≤ sepCount s := by
  induction ps generalizing s caps with
  | nil => simp [sepPieces]
  | cons p ps ih =>
      cases p with
      | lit l =>
          simp only [matchPieces] at h
          split_ifs at h with hci
          · have h1 := ih h
            have h2 := ciStarts_sepCount_take hci
            have h3 := sepCount_take_drop s l.length
            simp only [sepPieces]
            omega
      | star =>
          simp only [matchPieces] at h
          obtain ⟨n, hn, hfn⟩ := List.exists_of_findSome?_eq_some h
          split_ifs at hfn with hsep
          · have h1 := ih hfn
            have h2 := sepCount_drop_le s n
            simpa [sepPieces] using le_trans h1 h2
      | dstar =>
          simp only [matchPieces] at h
          obtain ⟨n, hn, hfn⟩ := List.exists_of_findSome?_eq_some h
          have h1 := ih hfn
          have h2 := sepCount_drop_le s n
          simpa [sepPieces] using le_trans h1 h2
      | var x =>
          simp only [matchPieces] at h
          obtain ⟨n, hn, hfn⟩ := List.exists_of_findSome?_eq_some h
          split_ifs at hfn with hsep
          · cases hmp : matchPieces ps (s.drop n) with
            | none => rw [hmp] at hfn; simp at hfn
            | some caps' =>
                have h1 := ih hmp
                have h2 := sepCount_drop_le s n
                simpa [sepPieces] using le_trans h1 h2

/-- Consuming an exact literal. -/
lemma lit_step (l : Str) (ps : List Piece) (rest : Str) :
    matchPieces (.lit l :: ps) (l ++ rest) = matchPieces ps rest := by
  simp only [matchPieces]
  rw [if_pos (ciStarts_refl_append l rest), List.drop_left]

/-- The greedy width search: every width above `k` fails and `k`
succeeds, so the scan returns `k`'s result. -/
lemma findSome_desc_eq {α : Type} {f : Nat → Option α} {k m : Nat} {r : α}
    (hbig : ∀ n, k < n → n ≤ m → f n = none) (hk : f k = some r)
    (h1 : 1 ≤ k) (hkm : k ≤ m) : (descList m).findSome? f = some r := by
  induction m with
  | zero => omega
  | succ m' ih =>
      rw [descList, List.findSome?_cons]
      by_cases he : k = m' + 1
      · rw [← he, hk]
      · rw [hbig (m' + 1) (by omega) (by omega)]
        exact ih (fun n hn hm => hbig n hn (by omega)) (by omega)

lemma tokRender_ne_nil {ν : Str → Str} {t : Piece} (ht : tokenOk ν t) :
    tokRender ν t ≠ [] := by
  cases t with
  | star => simp [tokRender]
  | dstar => simp [tokRender]
  | var n => exact ht.1
  | lit w => exact absurd ht (by simp [tokenOk])

lemma tokRender_sepFree {ν : Str → Str} {t : Piece} (ht : tokenOk ν t) :
    osSep ∉ tokRender ν t := by
  cases t with
  | star =>
      intro h
      have : osSep = '*' := by simpa [tokRender] using h
      exact absurd this (by decide)
  | dstar =>
      intro h
      have : osSep = '*' := by simpa [tokRender] using h
      exact absurd this (by decide)
  | var n => exact ht.2
  | lit w => exact absurd ht (by simp [tokenOk])

/-- Misaligned consumption cannot continue: after a token overshoots into
the suffix, the suffix literal would have to match across the following
separator. -/
lemma cont_fail_mid {suf : Str} (hsuf : osSep ∉ suf) (K : List Piece)
    {j : Nat} (hj : 1 ≤ j) (hjs : j ≤ suf.length) (R : Str) :
    matchPieces (.lit suf :: K) (suf.drop j ++ osSep :: R) = none := by
  have hci : ciStarts suf (suf.drop j ++ osSep :: R) = false := by
    by_contra hc
    have hc' : ciStarts suf (suf.drop j ++ osSep :: R) = true :=
      Bool.of_not_eq_false hc
    have hno := ciStarts_drop_nosep hc' hsuf
    apply hno
    rw [List.take_append_eq_append_take]
    apply List.mem_append_right
    have hlen : (suf.drop j).length = suf.length - j := List.length_drop _ _
    have : 1 ≤ suf.length - (suf.drop j).length := by omega
    cases hn : suf.length - (suf.drop j).length with
    | zero => omega
    | succ m => simp
  simp only [matchPieces]
  rw [hci]
  simp

/-- A separator-count shortfall kills the continuation outright. -/
lemma cont_fail_count {suf : Str} (hsuf : osSep ∉ suf) (K : List Piece)
    (x : Str) (hcount : sepCount x < 1 + sepPieces K) :
    matchPieces (.lit suf :: .lit [osSep] :: K) x = none := by
  cases hm : matchPieces (.lit suf :: .lit [osSep] :: K) x with
  | none => rfl
  | some caps =>
      exfalso
      have := matchPieces_sepCount hm
      simp only [sepPieces, sepCount_eq_zero hsuf] at this
      have h1 : sepCount [osSep] = 1 := by decide
      rw [h1] at this
      omega

/-- The all-separator-free guard holds on any prefix of the
separator-free region. -/
lemma take_all_nosep {A : Str} (hA : osSep ∉ A) (tail : Str) {n : Nat}
    (hn : n ≤ A.length) :
    ((A ++ tail).take n).all (fun c => c ≠ osSep) = true := by
  rw [List.take_append_of_le_length hn]
  rw [List.all_eq_true]
  intro c hc
  simp only [decide_eq_true_eq]
  intro he
  exact hA (he ▸ List.mem_of_mem_take hc)

lemma take_has_sep {A : Str} (tail : Str) {n : Nat}
    (hn : A.length < n) :
    ((A ++ osSep :: tail).take n).all (fun c => c ≠ osSep) = false := by
  rw [List.take_append_eq_append_take, List.take_of_length_le (le_of_lt hn)]
  have h1 : 1 ≤ n - A.length := by omega
  rw [Bool.eq_false_iff]
  intro hall
  rw [List.all_eq_true] at hall
  have hmem : osSep ∈ A ++ ((osSep :: tail).take (n - A.length)) := by
    apply List.mem_append_right
    cases hn2 : n - A.length with
    | zero => omega
    | succ m => simp
  have := hall osSep hmem
  simp at this

/-- Greedy token consumption in the LAST segment: every overshooting
width leaves too little input for the suffix literal, so the token
captures exactly its rendered text. -/
lemma token_step_last (ν : Str → Str) (t : Piece) (suf : Str)
    (ht : tokenOk ν t) :
    matchPieces (t :: [.lit suf]) (tokRender ν t ++ suf) =
      some (tokCaps ν t) := by
  have hne : tokRender ν t ≠ [] := tokRender_ne_nil ht
  have hsep : osSep ∉ tokRender ν t := tokRender_sepFree ht
  obtain ⟨tv, htv⟩ : ∃ tv, tokRender ν t = tv := ⟨_, rfl⟩
  rw [htv] at hne hsep ⊢
  have hinner : ∀ n, tv.length < n → n ≤ (tv ++ suf).length →
      ciStarts suf ((tv ++ suf).drop n) = false := by
    intro n h1 h2
    rw [List.length_append] at h2
    have hshort : ((tv ++ suf).drop n).length < suf.length := by
      rw [List.length_drop, List.length_append]
      omega
    exact ciStarts_false_of_short hshort
  have hss : ciStarts suf suf = true := by
    simpa using ciStarts_refl_append suf []
  have h1tv : 1 ≤ tv.length := by
    cases tv with
    | nil => exact absurd rfl hne
    | cons a b => simp
  have htvle : tv.length ≤ (tv ++ suf).length := by
    rw [List.length_append]; omega
  have hguard : (((tv ++ suf).take tv.length).all (fun c => c ≠ osSep)) = true :=
    take_all_nosep hsep suf (le_refl _)
  cases t with
  | lit w => exact absurd ht (by simp [tokenOk])
  | star =>
      simp only [matchPieces]
      apply findSome_desc_eq (k := tv.length) _ _ h1tv htvle
      · intro n hn hnm
        simp [hinner n hn hnm]
      · rw [if_pos hguard, List.drop_left]
        simp [hss, tokCaps]
  | dstar =>
      simp only [matchPieces]
      apply findSome_desc_eq (k := tv.length) _ _ h1tv htvle
      · intro n hn hnm
        simp [hinner n hn hnm]
      · rw [List.drop_left]
        simp [hss, tokCaps]
  | var x =>
      simp only [matchPieces]
      apply findSome_desc_eq (k := tv.length) _ _ h1tv htvle
      · intro n hn hnm
        simp [hinner n hn hnm]
      · rw [if_pos hguard, List.drop_left, List.take_left]
        have hx : ν x = tv := by simpa [tokRender] using htv
        simp [hss, tokCaps, hx]

lemma matchPieces_var (x : Str) (ps : List Piece) (s : Str) :
    matchPieces (.var x :: ps) s =
      (descList s.length).findSome? (fun n =>
        if (s.take n).all (fun c => c ≠ osSep) then
          (matchPieces ps (s.drop n)).map (fun caps => (x, s.take n) :: caps)
        else none) := rfl

lemma matchPieces_star (ps : List Piece) (s : Str) :
    matchPieces (.star :: ps) s =
      (descList s.length).findSome? (fun n =>
        if (s.take n).all (fun c => c ≠ osSep) then matchPieces ps (s.drop n)
        else none) := rfl

lemma matchPieces_dstar (ps : List Piece) (s : Str) :
    matchPieces (.dstar :: ps) s =
      (descList s.length).findSome? (fun n => matchPieces ps (s.drop n)) := rfl

/-- The separator-aligned shift is never case-insensitively a prefix. -/
lemma ciStarts_suf_shifted {suf : Str} (hsuf : osSep ∉ suf) {j : Nat}
    (hj : 1 ≤ j) (hjs : j ≤ suf.length) (R : Str) :
    ciStarts suf (suf.drop j ++ osSep :: R) = false := by
  rw [Bool.eq_false_iff]
  intro hc
  have hno := ciStarts_drop_nosep hc hsuf
  apply hno
  rw [List.take_append_eq_append_take]
  apply List.mem_append_right
  have hlen : (suf.drop j).length = suf.length - j := List.length_drop _ _
  cases hn : suf.length - (suf.drop j).length with
  | zero => omega
  | succ m => simp

/-- Greedy token consumption in a NON-LAST segment: overshooting widths
either capture the separator (rejected by the `[^/]+` classes), break the
suffix-literal alignment, or leave too few separators for the remaining
segments; so the token consumes exactly its rendered text and the match
proceeds into the rest of the path. -/
lemma token_step_mid (ν : Str → Str) (t : Piece) (suf : Str)
    (K : List Piece) (R : Str) (capsR : Tags)
    (ht : tokenOk ν t) (hsuf : osSep ∉ suf)
    (hrec : matchPieces K R = some capsR)
    (hKR : sepCount R ≤ sepPieces K) :
    matchPieces (t :: .lit suf :: .lit [osSep] :: K)
      (tokRender ν t ++ (suf ++ osSep :: R)) =
      some (tokCaps ν t ++ capsR) := by
  have hne : tokRender ν t ≠ [] := tokRender_ne_nil ht
  have hsept : osSep ∉ tokRender ν t := tokRender_sepFree ht
  obtain ⟨tv, htv⟩ : ∃ tv, tokRender ν t = tv := ⟨_, rfl⟩
  rw [htv] at hne hsept ⊢
  have h1tv : 1 ≤ tv.length := by
    cases tv with
    | nil => exact absurd rfl hne
    | cons a b => simp
  have hslen : (tv ++ (suf ++ osSep :: R)).length =
      tv.length + suf.length + 1 + R.length := by
    simp
    omega
  have hassoc : tv ++ (suf ++ osSep :: R) = (tv ++ suf) ++ osSep :: R :=
    (List.append_assoc tv suf (osSep :: R)).symm
  have htvle : tv.length ≤ (tv ++ (suf ++ osSep :: R)).length := by
    rw [hslen]; omega
  -- the aligned continuation
  have hcontk : matchPieces (.lit suf :: .lit [osSep] :: K)
      ((tv ++ (suf ++ osSep :: R)).drop tv.length) = some capsR := by
    rw [List.drop_left]
    have h1 : matchPieces (.lit suf :: .lit [osSep] :: K) (suf ++ (osSep :: R)) =
        matchPieces (.lit [osSep] :: K) (osSep :: R) := lit_step _ _ _
    have h2 : matchPieces (.lit [osSep] :: K) ([osSep] ++ R) =
        matchPieces K R := lit_step _ _ _
    rw [h1]
    rw [show (osSep :: R) = [osSep] ++ R from rfl, h2, hrec]
  -- every overshooting width fails
  have hbig : ∀ n, tv.length < n → n ≤ (tv ++ (suf ++ osSep :: R)).length →
      matchPieces (.lit suf :: .lit [osSep] :: K)
        ((tv ++ (suf ++ osSep :: R)).drop n) = none := by
    intro n hn hnm
    rw [hslen] at hnm
    by_cases hz : n ≤ tv.length + suf.length
    · have hdrop : (tv ++ (suf ++ osSep :: R)).drop n =
          suf.drop (n - tv.length) ++ osSep :: R := by
        rw [hassoc, List.drop_append_eq_append_drop,
          show n - (tv ++ suf).length = 0 from by rw [List.length_append]; omega,
          List.drop_zero, List.drop_append_eq_append_drop,
          List.drop_eq_nil_of_le (le_of_lt hn), List.nil_append]
      rw [hdrop]
      simp only [matchPieces]
      rw [ciStarts_suf_shifted hsuf (by omega) (by omega) R]
      simp
    · have hdrop : (tv ++ (suf ++ osSep :: R)).drop n =
          R.drop (n - tv.length - suf.length - 1) := by
        rw [hassoc, List.drop_append_eq_append_drop,
          List.drop_eq_nil_of_le (by rw [List.length_append]; omega),
          List.nil_append]
        have hm : n - (tv ++ suf).length = (n - tv.length - suf.length - 1) + 1 := by
          rw [List.length_append]
          omega
        rw [hm, List.drop_succ_cons]
      rw [hdrop]
      apply cont_fail_count hsuf K
      have h1 := sepCount_drop_le R (n - tv.length - suf.length - 1)
      omega
  -- the separator-free guard on the aligned width
  have hguard : (((tv ++ (suf ++ osSep :: R)).take tv.length).all
      (fun c => c ≠ osSep)) = true :=
    take_all_nosep hsept _ (le_refl _)
  -- a separator inside every overshooting zone-3 width
  have hg3 : ∀ n, tv.length + suf.length < n →
      (((tv ++ (suf ++ osSep :: R)).take n).all (fun c => c ≠ osSep)) = false := by
    intro n hn
    rw [hassoc]
    exact take_has_sep R (by rw [List.length_append]; omega)
  cases t with
  | lit w => exact absurd ht (by simp [tokenOk])
  | star =>
      rw [matchPieces_star]
      apply findSome_desc_eq (k := tv.length) _ _ h1tv htvle
      · intro n hn hnm
        by_cases hz : n ≤ tv.length + suf.length
        · rw [hbig n hn hnm]
          split_ifs <;> rfl
        · rw [hg3 n (by omega)]
          simp
      · rw [if_pos hguard, hcontk]
        simp [tokCaps]
  | dstar =>
      rw [matchPieces_dstar]
      apply findSome_desc_eq (k := tv.length) _ _ h1tv htvle
      · intro n hn hnm
        exact hbig n hn hnm
      · rw [hcontk]
        simp [tokCaps]
  | var x =>
      rw [matchPieces_var]
      apply findSome_desc_eq (k := tv.length) _ _ h1tv htvle
      · intro n hn hnm
        by_cases hz : n ≤ tv.length + suf.length
        · rw [hbig n hn hnm]
          split_ifs <;> rfl
        · rw [hg3 n (by omega)]
          simp
      · rw [if_pos hguard, hcontk, List.take_left]
        have hx : ν x = tv := by simpa [tokRender] using htv
        simp [tokCaps, hx]

lemma sepPieces_append (l₁ l₂ : List Piece) :
    sepPieces (l₁ ++ l₂) = sepPieces l₁ + sepPieces l₂ := by
  induction l₁ with
  | nil => simp [sepPieces]
  | cons p t ih =>
      cases p <;> simp [sepPieces, ih, Nat.add_assoc]

lemma segPieces_sepPieces {ν : Str → Str} {sg : Seg} (hwf : segWf ν sg) :
    sepPieces (segPieces sg) = 0 := by
  cases sg with
  | lit w =>
      simp [segPieces, sepPieces, sepCount_eq_zero hwf]
  | tok pre t suf =>
      obtain ⟨h1, h2, h3⟩ := hwf
      cases t with
      | lit w => exact absurd h3 (by simp [tokenOk])
      | star => simp [segPieces, sepPieces, sepCount_eq_zero h1, sepCount_eq_zero h2]
      | dstar => simp [segPieces, sepPieces, sepCount_eq_zero h1, sepCount_eq_zero h2]
      | var n => simp [segPieces, sepPieces, sepCount_eq_zero h1, sepCount_eq_zero h2]

lemma segRender_sepFree {ν : Str → Str} {sg : Seg} (hwf : segWf ν sg) :
    osSep ∉ segRender ν sg := by
  cases sg with
  | lit w => exact hwf
  | tok pre t suf =>
      obtain ⟨h1, h2, h3⟩ := hwf
      intro hmem
      simp only [segRender, List.mem_append] at hmem
      rcases hmem with (h | h) | h
      · exact h1 h
      · exact tokRender_sepFree h3 h
      · exact h2 h

lemma sepPieces_flattenSegs {ν : Str → Str} {segs : List Seg}
    (hwf : ∀ sg ∈ segs, segWf ν sg) :
    sepPieces (flattenSegs segs) = segs.length - 1 := by
  induction segs with
  | nil => simp [flattenSegs, sepPieces]
  | cons sg rest ih =>
      cases rest with
      | nil =>
          show sepPieces (segPieces sg) = 0
          exact segPieces_sepPieces (hwf sg (List.mem_cons_self _ _))
      | cons sg2 rest2 =>
          show sepPieces (segPieces sg ++ .lit [osSep] :: flattenSegs (sg2 :: rest2)) = _
          rw [sepPieces_append]
          have h1 : sepPieces (Piece.lit [osSep] :: flattenSegs (sg2 :: rest2)) =
              1 + sepPieces (flattenSegs (sg2 :: rest2)) := by
            simp [sepPieces]
            decide
          rw [h1, segPieces_sepPieces (hwf sg (List.mem_cons_self _ _)),
            ih (fun x hx => hwf x (List.mem_cons_of_mem _ hx))]
          simp
          omega

lemma sepCount_pathOf {ν : Str → Str} {segs : List Seg}
    (hwf : ∀ sg ∈ segs, segWf ν sg) :
    sepCount (pathOf ν segs) = segs.length - 1 := by
  induction segs with
  | nil => simp [pathOf, sepCount]
  | cons sg rest ih =>
      cases rest with
      | nil =>
          show sepCount (segRender ν sg) = 0
          exact sepCount_eq_zero (segRender_sepFree (hwf sg (List.mem_cons_self _ _)))
      | cons sg2 rest2 =>
          show sepCount (segRender ν sg ++ osSep :: pathOf ν (sg2 :: rest2)) = _
          rw [sepCount_append]
          rw [sepCount_eq_zero (segRender_sepFree (hwf sg (List.mem_cons_self _ _)))]
          have h1 : sepCount (osSep :: pathOf ν (sg2 :: rest2)) =
              1 + sepCount (pathOf ν (sg2 :: rest2)) := by
            unfold sepCount
            rw [List.count_cons]
            simp
            omega
          rw [h1, ih (fun x hx => hwf x (List.mem_cons_of_mem _ hx))]
          simp
          omega

/-- The heart of the round trip: a well-formed one-token-per-segment
pattern, matched greedily against its own substitution, consumes it
segment by segment and captures exactly the substituted values. -/
lemma matchSegs (ν : Str → Str) (segs : List Seg)
    (hwf : ∀ sg ∈ segs, segWf ν sg) :
    matchPieces (flattenSegs segs) (pathOf ν segs) = some (capsOf ν segs) := by
  induction segs with
  | nil => simp [flattenSegs, pathOf, capsOf, matchPieces]
  | cons sg rest ih =>
      cases rest with
      | nil =>
          cases sg with
          | lit w =>
              show matchPieces [.lit w] w = some (capsOf ν [.lit w])
              have h0 : matchPieces [Piece.lit w] (w ++ []) = matchPieces [] [] :=
                lit_step _ _ _
              simpa [capsOf, segCaps, matchPieces] using h0
          | tok pre t suf =>
              show matchPieces (.lit pre :: t :: [.lit suf])
                (pre ++ tokRender ν t ++ suf) = some (capsOf ν [.tok pre t suf])
              rw [List.append_assoc, lit_step]
              rw [token_step_last ν t suf (hwf _ (List.mem_cons_self _ _)).2.2]
              simp [capsOf, segCaps]
      | cons sg2 rest2 =>
          have hwrest : ∀ x ∈ sg2 :: rest2, segWf ν x :=
            fun x hx => hwf x (List.mem_cons_of_mem _ hx)
          have ihr := ih hwrest
          have hcount : sepCount (pathOf ν (sg2 :: rest2)) ≤
              sepPieces (flattenSegs (sg2 :: rest2)) := by
            rw [sepCount_pathOf hwrest, sepPieces_flattenSegs hwrest]
          cases sg with
          | lit w =>
              show matchPieces (.lit w :: .lit [osSep] :: flattenSegs (sg2 :: rest2))
                (w ++ osSep :: pathOf ν (sg2 :: rest2)) = _
              rw [lit_step]
              rw [show (osSep :: pathOf ν (sg2 :: rest2)) =
                [osSep] ++ pathOf ν (sg2 :: rest2) from rfl, lit_step, ihr]
              simp [capsOf, segCaps]
          | tok pre t suf =>
              show matchPieces
                (.lit pre :: t :: .lit suf :: .lit [osSep] :: flattenSegs (sg2 :: rest2))
                ((pre ++ tokRender ν t ++ suf) ++ osSep :: pathOf ν (sg2 :: rest2)) = _
              obtain ⟨hpre, hsuf, htok⟩ := hwf _ (List.mem_cons_self _ _)
              have harr : (pre ++ tokRender ν t ++ suf) ++
                  osSep :: pathOf ν (sg2 :: rest2) =
                  pre ++ (tokRender ν t ++
                    (suf ++ osSep :: pathOf ν (sg2 :: rest2))) := by
                simp [List.append_assoc]
              rw [harr, lit_step]
              rw [token_step_mid ν t suf (flattenSegs (sg2 :: rest2))
                (pathOf ν (sg2 :: rest2)) (capsOf ν (sg2 :: rest2))
                htok hsuf ihr hcount]
              simp [capsOf, segCaps]

lemma matchVarAt_spec {s tok rest : Str}
    (h : matchVarAt s = some (tok, rest)) :
    s = tok ++ rest ∧
      ∃ name, tok = '{' :: name ++ ['}'] ∧ name ≠ [] ∧
        ∀ c ∈ name, isWordChar c := by
  cases s with
  | nil => simp [matchVarAt] at h
  | cons c t =>
      simp only [matchVarAt] at h
      split_ifs at h with h1 h2
      · obtain ⟨hc, hn⟩ := h2
        obtain ⟨htok, hrest⟩ : '{' :: t.takeWhile isWordChar ++ ['}'] = tok ∧
            (t.dropWhile isWordChar).tail = rest := by
          constructor
          · exact (congrArg Prod.fst (Option.some.inj h))
          · exact (congrArg Prod.snd (Option.some.inj h))
        subst h1
        refine ⟨?_, t.takeWhile isWordChar, htok.symm, hc, ?_⟩
        · rw [← htok, ← hrest]
          have hd : t.dropWhile isWordChar = '}' :: (t.dropWhile isWordChar).tail := by
            cases hdw : t.dropWhile isWordChar with
            | nil => rw [hdw] at hn; simp at hn
            | cons d dt =>
                rw [hdw] at hn
                simp only [List.head?_cons, Option.some.injEq] at hn
                simp [hn]
        /- s = '{' :: t and t = takeWhile ++ dropWhile -/
          conv_lhs => rw [show t = t.takeWhile isWordChar ++ t.dropWhile isWordChar from
            (List.takeWhile_append_dropWhile _ _).symm]
          rw [hd]
          simp
        · intro c hc2
          exact List.mem_takeWhile_imp hc2

lemma matchTokenAt_spec {s tok rest : Str}
    (h : matchTokenAt s = some (tok, rest)) :
    s = tok ++ rest ∧ TokenShape tok := by
  unfold matchTokenAt at h
  cases hv : matchVarAt s with
  | some r =>
      rw [hv] at h
      simp only [Option.some.injEq] at h
      obtain ⟨hrec, name, hshape⟩ := matchVarAt_spec (h ▸ hv)
      exact ⟨hrec, Or.inr (Or.inr ⟨name, hshape⟩)⟩
  | none =>
      rw [hv] at h
      simp only at h
      split_ifs at h with h1 h2
      · obtain ⟨htok, hrest⟩ : (['*', '*'] : Str) = tok ∧ s.drop 2 = rest :=
          ⟨congrArg Prod.fst (Option.some.inj h), congrArg Prod.snd (Option.some.inj h)⟩
        subst htok
        subst hrest
        constructor
        · rw [← h1]
          exact (List.take_append_drop 2 s).symm
        · exact Or.inr (Or.inl rfl)
      · obtain ⟨htok, hrest⟩ : (['*'] : Str) = tok ∧ s.drop 1 = rest :=
          ⟨congrArg Prod.fst (Option.some.inj h), congrArg Prod.snd (Option.some.inj h)⟩
        subst htok
        subst hrest
        constructor
        · rw [← h2]
          exact (List.take_append_drop 1 s).symm
        · exact Or.inl rfl

lemma scanAux_succ (fuel : Nat) (acc s : Str) :
    scanAux (fuel + 1) acc s =
      match matchTokenAt s with
      | some (tok, rest) =>
          ((acc.reverse, tok) :: (scanAux fuel [] rest).1,
            (scanAux fuel [] rest).2)
      | none =>
          match s with
          | [] => ([], acc.reverse)
          | c :: rest => scanAux fuel (c :: acc) rest := rfl

/-- Scanner reconstruction: the `(pre, token)` pairs and the trailing
literal cover exactly the scanned text. -/
lemma scanAux_reconstruct : ∀ (fuel : Nat) (acc s : Str), s.length ≤ fuel →
    acc.reverse ++ s =
      ((scanAux fuel acc s).1.flatMap (fun pr => pr.1 ++ pr.2)) ++
        (scanAux fuel acc s).2 := by
  intro fuel
  induction fuel with
  | zero =>
      intro acc s hs
      have : s = [] := by
        cases s with
        | nil => rfl
        | cons a t => simp at hs
      subst this
      simp [scanAux]
  | succ fuel ih =>
      intro acc s hs
      cases hm : matchTokenAt s with
      | some r =>
          obtain ⟨tok, rest⟩ := r
          obtain ⟨hrec, -⟩ := matchTokenAt_spec hm
          have hlt : rest.length < s.length := matchTokenAt_rest_lt hm
          have := ih [] rest (by omega)
          simp only [List.reverse_nil, List.nil_append] at this
          show acc.reverse ++ s = _
          rw [show scanAux (fuel + 1) acc s =
            ((acc.reverse, tok) :: (scanAux fuel [] rest).1,
              (scanAux fuel [] rest).2) from by rw [scanAux_succ, hm]]
          rw [hrec]
          simp only [List.flatMap_cons, List.append_assoc]
          rw [← this]
      | none =>
          cases s with
          | nil =>
              show acc.reverse ++ [] = _
              rw [show scanAux (fuel + 1) acc [] = ([], acc.reverse) from by
                rw [scanAux_succ, hm]]
              simp
          | cons c rest =>
              have hlen : rest.length ≤ fuel := by
                simp at hs
                omega
              have := ih (c :: acc) rest hlen
              show acc.reverse ++ c :: rest = _
              rw [show scanAux (fuel + 1) acc (c :: rest) =
                scanAux fuel (c :: acc) rest from by rw [scanAux_succ, hm]]
              rw [← this]
              simp

/-- Every scanned token has token shape. -/
lemma scanAux_shapes : ∀ (fuel : Nat) (acc s : Str),
    ∀ pr ∈ (scanAux fuel acc s).1, TokenShape pr.2 := by
  intro fuel
  induction fuel with
  | zero =>
      intro acc s pr hpr
      simp [scanAux] at hpr
  | succ fuel ih =>
      intro acc s pr hpr
      cases hm : matchTokenAt s with
      | some r =>
          obtain ⟨tok, rest⟩ := r
          rw [show scanAux (fuel + 1) acc s =
            ((acc.reverse, tok) :: (scanAux fuel [] rest).1,
              (scanAux fuel [] rest).2) from by rw [scanAux_succ, hm]] at hpr
          rcases List.mem_cons.mp hpr with rfl | hmem
          · exact (matchTokenAt_spec hm).2
          · exact ih [] rest pr hmem
      | none =>
          cases s with
          | nil =>
              rw [show scanAux (fuel + 1) acc [] = ([], acc.reverse) from by
                rw [scanAux_succ, hm]] at hpr
              simp at hpr
          | cons c rest =>
              rw [show scanAux (fuel + 1) acc (c :: rest) =
                scanAux fuel (c :: acc) rest from by rw [scanAux_succ, hm]] at hpr
              exact ih (c :: acc) rest pr hpr

lemma splitChar_mem_sepFree {sep : Char} : ∀ {l : Str} {p : Str},
    p ∈ splitChar sep l → sep ∉ p := by
  intro l
  induction l with
  | nil =>
      intro p hp
      have : p = [] := by simpa [splitChar] using hp
      simp [this]
  | cons a t ih =>
      intro p hp
      by_cases ha : a = sep
      · subst ha
        rw [splitChar_cons_sep] at hp
        rcases List.mem_cons.mp hp with rfl | hmem
        · simp
        · exact ih hmem
      · cases hsp : splitChar sep t with
        | nil => exact absurd hsp (splitChar_ne_nil sep t)
        | cons g gs =>
            rw [splitChar_cons_ne ha hsp] at hp
            rcases List.mem_cons.mp hp with rfl | hmem
            · intro hmem2
              rcases List.mem_cons.mp hmem2 with rfl | hmem3
              · exact ha rfl
              · exact ih (hsp ▸ List.mem_cons_self g gs) hmem3
            · exact ih (hsp ▸ List.mem_cons_of_mem g hmem)

/-- Token shapes are never empty and determine `parse_var_or_glob` and
`substTok`. -/
lemma tokenShape_ne_nil {t : Str} (h : TokenShape t) : t ≠ [] := by
  rcases h with rfl | rfl | ⟨name, rfl, -, -⟩ <;> simp

lemma substTok_eq_tokRender {ν : Str → Str} {t : Str} (h : TokenShape t) :
    substTok ν t = tokRender ν (parse_var_or_glob t) := by
  unfold substTok
  rw [if_neg (tokenShape_ne_nil h)]
  rcases h with rfl | rfl | ⟨name, rfl, hne, -⟩
  · simp [parse_var_or_glob, tokRender]
  · simp [parse_var_or_glob, tokRender]
  · have h1 : ('{' :: name ++ ['}'] : Str) ≠ ['*', '*'] := by
      intro he
      have := congrArg (fun l => List.head? l) he
      simp at this
    have h2 : ('{' :: name ++ ['}'] : Str) ≠ ['*'] := by
      intro he
      have := congrArg (fun l => List.head? l) he
      simp at this
    have hparse : parse_var_or_glob ('{' :: name ++ ['}']) = .var name := by
      unfold parse_var_or_glob
      rw [if_neg h1, if_neg h2]
      congr 1
      show ((('{' :: name ++ ['}']).drop 1).dropLast) = name
      simp
    rw [hparse]
    rfl

/-- The token of a var piece in a one-token segment contributes admissible
token data. -/
lemma tokenOk_of_shape {ν : Str → Str} {t : Str} (h : TokenShape t)
    (hν : ∀ n, ν n ≠ [] ∧ osSep ∉ ν n) : tokenOk ν (parse_var_or_glob t) := by
  rcases h with rfl | rfl | ⟨name, rfl, hne, -⟩
  · simp [parse_var_or_glob, tokenOk]
  · simp [parse_var_or_glob, tokenOk]
  · have h1 : ('{' :: name ++ ['}'] : Str) ≠ ['*', '*'] := by
      intro he
      have := congrArg (fun l => List.head? l) he
      simp at this
    have h2 : ('{' :: name ++ ['}'] : Str) ≠ ['*'] := by
      intro he
      have := congrArg (fun l => List.head? l) he
      simp at this
    unfold parse_var_or_glob
    rw [if_neg h1, if_neg h2]
    exact hν _

/-- One-token segments: the compiled pieces, the substitution, and
well-formedness all factor through `segOf`. -/
lemma segOf_spec (ν : Str → Str) (seg : Str)
    (hone : (scanAux seg.length [] seg).1.length ≤ 1)
    (hsep : osSep ∉ seg) (hν : ∀ n, ν n ≠ [] ∧ osSep ∉ ν n) :
    parse_segment seg = segPieces (segOf seg) ∧
    substSegment ν seg = segRender ν (segOf seg) ∧
    segWf ν (segOf seg) := by
  cases hp : (scanAux seg.length [] seg).1 with
  | nil =>
      have hscan : scanAux seg.length [] seg = ([], (scanAux seg.length [] seg).2) := by
        rw [← hp]
      have hfms : find_match_segments seg = [] := by
        unfold find_match_segments
        rw [hscan]
      have hsg : segOf seg = .lit seg := by
        unfold segOf
        rw [hp]
      rw [hsg]
      refine ⟨?_, ?_, hsep⟩
      · unfold parse_segment
        rw [hfms]
        rfl
      · unfold substSegment
        rw [hfms]
        rfl
  | cons pr0 prs =>
      obtain ⟨pre, tok⟩ := pr0
      have hprs : prs = [] := by
        have := hone
        rw [hp] at this
        simpa using this
      subst hprs
      have hscan : scanAux seg.length [] seg =
          ([(pre, tok)], (scanAux seg.length [] seg).2) := by
        rw [← hp]
      have hshape : TokenShape tok :=
        scanAux_shapes seg.length [] seg (pre, tok) (hp ▸ List.mem_cons_self _ _)
      have hrecon : seg = pre ++ tok ++ (scanAux seg.length [] seg).2 := by
        have := scanAux_reconstruct seg.length [] seg (le_refl _)
        rw [hp] at this
        simpa [List.append_assoc] using this
      have hfms : find_match_segments seg =
          [(pre, tok), ((scanAux seg.length [] seg).2, [])] := by
        unfold find_match_segments
        rw [hscan]
        rfl
      have hsg : segOf seg = .tok pre (parse_var_or_glob tok)
          ((scanAux seg.length [] seg).2) := by
        unfold segOf
        rw [hp]
      have hpre : osSep ∉ pre := by
        intro hmem
        exact hsep (hrecon ▸ List.mem_append_left _ (List.mem_append_left _ hmem))
      have hpost : osSep ∉ (scanAux seg.length [] seg).2 := by
        intro hmem
        exact hsep (hrecon ▸ List.mem_append_right _ hmem)
      rw [hsg]
      refine ⟨?_, ?_, hpre, hpost, tokenOk_of_shape hshape hν⟩
      · unfold parse_segment
        rw [hfms]
        simp [tokenShape_ne_nil hshape, segPieces]
      · unfold substSegment
        rw [hfms]
        have hnil : substTok ν [] = [] := by simp [substTok]
        simp only [List.flatMap_cons, List.flatMap_nil, hnil,
          substTok_eq_tokRender hshape]
        simp [segRender, List.append_assoc]

lemma flattenSegs_joinWith : ∀ segs : List Seg,
    flattenSegs segs = joinWith [Piece.lit [osSep]] (segs.map segPieces) := by
  intro segs
  induction segs with
  | nil => rfl
  | cons sg rest ih =>
      cases rest with
      | nil => rfl
      | cons sg2 rest2 =>
          show segPieces sg ++ .lit [osSep] :: flattenSegs (sg2 :: rest2) = _
          show _ = segPieces sg ++ [Piece.lit [osSep]] ++
            joinWith [Piece.lit [osSep]] ((sg2 :: rest2).map segPieces)
          rw [← ih]
          simp

lemma pathOf_joinWith (ν : Str → Str) : ∀ segs : List Seg,
    pathOf ν segs = joinWith [osSep] (segs.map (segRender ν)) := by
  intro segs
  induction segs with
  | nil => rfl
  | cons sg rest ih =>
      cases rest with
      | nil => rfl
      | cons sg2 rest2 =>
          show segRender ν sg ++ osSep :: pathOf ν (sg2 :: rest2) = _
          show _ = segRender ν sg ++ [osSep] ++
            joinWith [osSep] ((sg2 :: rest2).map (segRender ν))
          rw [← ih]
          simp

lemma segCaps_varNames (ν : Str → Str) (sg : Seg) :
    segCaps ν sg = (pieceVarNames (segPieces sg)).map (fun n => (n, ν n)) := by
  cases sg with
  | lit w => simp [segCaps, segPieces, pieceVarNames]
  | tok pre t suf =>
      cases t <;> simp [segCaps, segPieces, pieceVarNames, tokCaps]

lemma pieceVarNames_append (l₁ l₂ : List Piece) :
    pieceVarNames (l₁ ++ l₂) = pieceVarNames l₁ ++ pieceVarNames l₂ := by
  unfold pieceVarNames
  rw [List.filterMap_append]

lemma capsOf_varNames (ν : Str → Str) : ∀ segs : List Seg,
    capsOf ν segs = (pieceVarNames (flattenSegs segs)).map (fun n => (n, ν n)) := by
  intro segs
  induction segs with
  | nil => rfl
  | cons sg rest ih =>
      cases rest with
      | nil =>
          show segCaps ν sg ++ [] = _
          rw [List.append_nil]
          exact segCaps_varNames ν sg
      | cons sg2 rest2 =>
          show segCaps ν sg ++ capsOf ν (sg2 :: rest2) = _
          rw [show flattenSegs (sg :: sg2 :: rest2) =
            segPieces sg ++ .lit [osSep] :: flattenSegs (sg2 :: rest2) from rfl]
          rw [pieceVarNames_append]
          rw [show pieceVarNames (Piece.lit [osSep] :: flattenSegs (sg2 :: rest2)) =
            pieceVarNames (flattenSegs (sg2 :: rest2)) from rfl]
          rw [List.map_append, ← segCaps_varNames ν sg, ← ih]

/-- **C6 (amended).**  For every pattern each of whose path segments
contains at most one variable/glob token, every compiled matcher of the
pattern, and every assignment of nonempty separator-free values to its
variables, the path built by substituting those values into the pattern's
variable slots is accepted by the compiled matcher, and the returned
metadata map binds each variable to exactly the substituted value. -/
theorem compiler_substitution_roundtrip
    (expr : Str) (ps : List Piece) (ν : Str → Str)
    (hone : ∀ seg ∈ splitChar osSep expr, (scanAux seg.length [] seg).1.length ≤ 1)
    (hcomp : compiled_match_expr expr = .ok ps)
    (hν : ∀ n, ν n ≠ [] ∧ osSep ∉ ν n) :
    matcherMatch ps (substPattern ν expr) =
      some ((pieceVarNames ps).map (fun n => (n, ν n))) := by
  have hps : ps = exprPieces expr := by
    unfold compiled_match_expr at hcomp
    split_ifs at hcomp with hc
    · exact (Except.ok.inj hcomp).symm
  subst hps
  have hspec : ∀ seg ∈ splitChar osSep expr,
      parse_segment seg = segPieces (segOf seg) ∧
      substSegment ν seg = segRender ν (segOf seg) ∧
      segWf ν (segOf seg) := by
    intro seg hseg
    exact segOf_spec ν seg (hone seg hseg) (splitChar_mem_sepFree hseg) hν
  have hmap1 : (splitChar osSep expr).map parse_segment =
      ((splitChar osSep expr).map segOf).map segPieces := by
    rw [List.map_map]
    apply List.map_congr_left
    intro seg hseg
    exact (hspec seg hseg).1
  have hmap2 : (splitChar osSep expr).map (substSegment ν) =
      ((splitChar osSep expr).map segOf).map (segRender ν) := by
    rw [List.map_map]
    apply List.map_congr_left
    intro seg hseg
    exact (hspec seg hseg).2.1
  have hwf : ∀ sg ∈ (splitChar osSep expr).map segOf, segWf ν sg := by
    intro sg hsg
    obtain ⟨seg, hseg, rfl⟩ := List.mem_map.mp hsg
    exact (hspec seg hseg).2.2
  have h1 : exprPieces expr = flattenSegs ((splitChar osSep expr).map segOf) := by
    unfold exprPieces
    rw [hmap1, ← flattenSegs_joinWith]
  have h2 : substPattern ν expr = pathOf ν ((splitChar osSep expr).map segOf) := by
    unfold substPattern
    rw [hmap2, ← pathOf_joinWith]
  rw [h1, h2]
  unfold matcherMatch
  rw [matchSegs ν _ hwf, capsOf_varNames]

/-- **C6 counterexample.**  The pattern `{a}{b}` (two adjacent variables in
one path segment) compiles; substituting the nonempty separator-free values
`a := "x"`, `b := "xy"` builds the path `"xxy"`; but the compiled matcher,
being greedy, accepts that path with the bindings `a := "xx"`, `b := "y"` —
not the substituted values.  So the claim fails for general patterns. -/
theorem substitution_roundtrip_counterexample :
    compiled_match_expr "{a}{b}".toList =
      .ok [Piece.lit [], .var ['a'], .lit [], .var ['b'], .lit []] ∧
    substPattern (fun n => if n = ['a'] then ['x'] else "xy".toList)
      "{a}{b}".toList = "xxy".toList ∧
    matcherMatch [Piece.lit [], .var ['a'], .lit [], .var ['b'], .lit []]
      "xxy".toList = some [(['a'], "xx".toList), (['b'], ['y'])] ∧
    ("xx".toList, ['y']) ≠
      ((fun n => if n = ['a'] then ['x'] else "xy".toList) ['a'],
       (fun n => if n = ['a'] then ['x'] else "xy".toList) ['b']) :=
  ⟨by rfl, by decide, by decide, by decide⟩

/-- **C6 witness.**  Pattern `data/{year}/f_{id}.csv` with both variables
assigned the value `"2021"`. -/
theorem compiler_substitution_roundtrip_witness :
    (∀ seg ∈ splitChar osSep "data/{year}/f_{id}.csv".toList,
      (scanAux seg.length [] seg).1.length ≤ 1) ∧
    matcherMatch (exprPieces "data/{year}/f_{id}.csv".toList)
      (substPattern (fun _ => "2021".toList) "data/{year}/f_{id}.csv".toList) =
      some ((pieceVarNames (exprPieces "data/{year}/f_{id}.csv".toList)).map
        (fun n => (n, (fun _ => "2021".toList) n))) :=
  ⟨by decide,
    compiler_substitution_roundtrip _ _ _
      (by decide) (by rfl)
      (fun _ => ⟨by decide, by decide⟩)⟩

end FsSnap

